import Mathlib

/-!
Verification of the splay-tree ordered map in `src/splay.rs` of the
crab-bucket repository.

The first part of this file is a shallow embedding of the Rust source:
each Rust item is translated to a Lean definition of the same name
(`Splay::rotate` becomes `Splay.rotate`, and so on).  Keys and values
are specialised to `Int` (the repository's own tests use `i32`).
Panicking operations — arena indexing, `Option::unwrap`, the
`unreachable!` arm of `splay_finish` and `Vec::swap` — are modelled in
the `Option` monad, where `none` is a panic.  The recursion of
`visit_inner`, `node_depth` and the iterator loops runs on arena
indices, so it is given explicit fuel; the fuel passed by the public
entry points is `nodes.length + 1`, and the theorems below prove that
on every reachable state this fuel is sufficient (so `none` never
occurs).  The Rust iterator's `Vec<(Idx, bool)>` stack is modelled as a
`List` whose head is the top of the stack (the end of the `Vec`).

The second part abstracts arena states into inductive binary trees
(`Tree`, related to states by `IsTree`), defines the reference
associative container of the specification (`refSet`/`refGet`, a sorted
association list), and proves the claims.
-/

namespace CrabBucket

/-- Direction of descent, `Dir` in the source. -/
inductive Dir where
  | left
  | right
deriving DecidableEq

/-- `Dir::flip`. -/
def Dir.flip : Dir → Dir
  | .left => .right
  | .right => .left

/-- Pending-rotation path state, `Path` in the source. -/
inductive Path where
  | empty
  | one (d : Dir)
  | two (d1 d2 : Dir)
deriving DecidableEq

/-- `Path::extend`. -/
def Path.extend : Path → Dir → Path
  | .empty, d => .one d
  | .one d1, d => .two d d1
  | .two d1 _, d => .two d d1

/-- Arena node, `Node<K, V>` in the source.  The `OptionIdx` sentinel
representation (`usize::MAX` for "no child") is modelled by its
interface `to_option`, i.e. as `Option Nat`. -/
structure Node where
  key : Int
  value : Int
  left : Option Nat
  right : Option Nat
deriving DecidableEq

/-- Child slot of a node in a given direction. -/
def Node.dirChild (n : Node) : Dir → Option Nat
  | .left => n.left
  | .right => n.right

/-- Replace the child slot of a node in a given direction. -/
def Node.withDir (n : Node) : Dir → Option Nat → Node
  | .left, x => { n with left := x }
  | .right, x => { n with right := x }

/-- The container, `Splay<K, V>` in the source: a root reference and the
node arena (`Vec<Node<K, V>>`). -/
structure Splay where
  root : Option Nat
  nodes : List Node
deriving DecidableEq

/-- Lookup-or-insert request, `OrCreate<K, V>` in the source. -/
inductive OrCreate where
  | lookup (key : Int)
  | create (key : Int) (value : Int)
deriving DecidableEq

/-- `OrCreate::key`. -/
def OrCreate.key : OrCreate → Int
  | .lookup k => k
  | .create k _ => k

/-- `OrCreate::value`. -/
def OrCreate.val : OrCreate → Option Int
  | .lookup _ => none
  | .create _ v => some v

namespace Splay

/-- `Splay::new`. -/
def new : Splay := ⟨none, []⟩

/-- `Splay::child`; the outer `Option` is the arena indexing panic. -/
def child (s : Splay) (idx : Nat) (dir : Dir) : Option (Option Nat) :=
  (s.nodes[idx]?).map fun n => n.dirChild dir

/-- `Splay::set_child`; `none` models the arena indexing panic. -/
def setChild (s : Splay) (idx : Nat) (dir : Dir) (tgt : Option Nat) : Option Splay :=
  (s.nodes[idx]?).map fun n =>
    { s with nodes := s.nodes.set idx (n.withDir dir tgt) }

/-- `Vec::swap` as used in `Splay::rotate`. -/
def swapNodes (s : Splay) (i j : Nat) : Option Splay := do
  let a ← s.nodes[i]?
  let b ← s.nodes[j]?
  pure { s with nodes := (s.nodes.set i b).set j a }

/-- `Splay::new_node`: appends a fresh node and returns its index. -/
def newNode (s : Splay) (key value : Int) : Splay × Nat :=
  ({ s with nodes := s.nodes ++ [⟨key, value, none, none⟩] }, s.nodes.length)

/-- `Splay::rotate`: relink the two child slots on the rotated edge and
swap the contents of the two arena slots. -/
def rotate (s : Splay) (upper : Nat) (dir : Dir) : Option Splay := do
  let lower ← (← s.child upper dir)
  let l2 ← s.child lower dir.flip
  let s ← s.setChild upper dir l2
  let s ← s.setChild lower dir.flip (some lower)
  s.swapNodes upper lower

/-- `Splay::splay_step`. -/
def splayStep (s : Splay) (idx : Nat) (p : Path) : Option (Splay × Path) :=
  match p with
  | .two d1 d2 => do
    let next ← (← s.child idx d1)
    let s ← s.rotate next d2
    let s ← s.rotate idx d1
    pure (s, Path.empty)
  | p => some (s, p)

/-- `Splay::splay_finish`; the `Path::Two` arm is the source's
`unreachable!`, modelled as a panic. -/
def splayFinish (s : Splay) (p : Path) : Option Splay :=
  match p with
  | .empty => some s
  | .two _ _ => none
  | .one d => do
    let root ← s.root
    s.rotate root d

/-- `Splay::visit_inner`, with explicit fuel for the recursion on arena
indices.  `Splay::visit_inner_helper` is inlined into the two descent
branches (specialised to `Dir.left` and `Dir.right`) so that the
recursion is structural on the fuel; `visitInnerHelper` below restates
the helper on its own. -/
def visitInner (s : Splay) (fuel : Nat) (idx : Nat) (c : OrCreate) (p : Path) :
    Option (Splay × Path × Option Int) :=
  match fuel with
  | 0 => none
  | fuel + 1 => do
    let n ← s.nodes[idx]?
    let (s, p, value) ←
      match compare c.key n.key with
      | .eq => some (s, Path.empty, c.val)
      | .lt => do
        match (← s.child idx .left) with
        | some idx => do
          let (s, p, value) ← visitInner s fuel idx c p
          pure (s, p.extend .left, value)
        | none =>
          match c with
          | .create k v =>
            let (s, node) := s.newNode k v
            let s ← s.setChild idx .left (some node)
            pure (s, Path.one .left, none)
          | .lookup _ => pure (s, p, none)
      | .gt => do
        match (← s.child idx .right) with
        | some idx => do
          let (s, p, value) ← visitInner s fuel idx c p
          pure (s, p.extend .right, value)
        | none =>
          match c with
          | .create k v =>
            let (s, node) := s.newNode k v
            let s ← s.setChild idx .right (some node)
            pure (s, Path.one .right, none)
          | .lookup _ => pure (s, p, none)
    let (s, p) ← s.splayStep idx p
    pure (s, p, value)

/-- `Splay::visit_inner_helper` (inlined in `visitInner` above; this
definition restates it for the simulation proofs). -/
def visitInnerHelper (s : Splay) (fuel : Nat) (nodeIdx : Nat) (c : OrCreate) (dir : Dir)
    (p : Path) : Option (Splay × Path × Option Int) := do
  match (← s.child nodeIdx dir) with
  | some idx => do
    let (s, p, value) ← visitInner s fuel idx c p
    pure (s, p.extend dir, value)
  | none =>
    match c with
    | .create k v =>
      let (s, node) := s.newNode k v
      let s ← s.setChild nodeIdx dir (some node)
      pure (s, Path.one dir, none)
    | .lookup _ => pure (s, p, none)

/-- `Splay::visit`.  The fuel `nodes.length + 1` bounds the recursion
depth of `visit_inner`; sufficiency on reachable states is proved
below. -/
def visit (s : Splay) (c : OrCreate) : Option (Splay × Option Int) :=
  match s.root with
  | some root => do
    let (s, p, value) ← visitInner s (s.nodes.length + 1) root c .empty
    let s ← s.splayFinish p
    pure (s, value)
  | none =>
    match c with
    | .lookup _ => some (s, none)
    | .create key value =>
      let (s, root) := s.newNode key value
      some ({ s with root := some root }, none)

/-- `Splay::get`. -/
def get (s : Splay) (key : Int) : Option (Splay × Option Int) := do
  let (s, _) ← s.visit (.lookup key)
  match s.root with
  | none => pure (s, none)
  | some root => do
    let n ← s.nodes[root]?
    pure (s, if n.key = key then some n.value else none)

/-- `Splay::set`. -/
def set (s : Splay) (key value : Int) : Option Splay := do
  let (s, v) ← s.visit (.create key value)
  match v with
  | some value => do
    let root ← s.root
    let n ← s.nodes[root]?
    pure { s with nodes := s.nodes.set root { n with value := value } }
  | none => pure s

/-- `Splay::node_depth`, with fuel for the arena recursion. -/
def nodeDepth (s : Splay) (fuel : Nat) (idx : Option Nat) : Option Nat :=
  match idx with
  | none => some 0
  | some i =>
    match fuel with
    | 0 => none
    | fuel + 1 => do
      let n ← s.nodes[i]?
      let dl ← s.nodeDepth fuel n.left
      let dr ← s.nodeDepth fuel n.right
      pure (1 + max dl dr)

/-- `Splay::depth`. -/
def depth (s : Splay) : Option Nat := s.nodeDepth (s.nodes.length + 1) s.root

/-- `SplayIter::towards_min`: push the left spine starting at `idx`
(the stack grows at the head). -/
def towardsMin (s : Splay) (fuel : Nat) (idx : Nat) (path : List (Nat × Bool)) :
    Option (List (Nat × Bool)) :=
  match fuel with
  | 0 => none
  | fuel + 1 => do
    let n ← s.nodes[idx]?
    match n.left with
    | some j => s.towardsMin fuel j ((idx, false) :: path)
    | none => pure ((idx, false) :: path)

/-- `SplayIter::upwards`: pop entries whose right subtree is done. -/
def upwards : List (Nat × Bool) → List (Nat × Bool)
  | (_, true) :: rest => upwards rest
  | path => path

/-- `SplayIter::new`. -/
def iterInit (s : Splay) : Option (List (Nat × Bool)) :=
  match s.root with
  | none => some []
  | some root => s.towardsMin s.nodes.length root []

/-- One step of `Iterator::next` for `SplayIter`.  The outer `Option`
is a panic, the inner `none` means iteration has finished. -/
def iterNext (s : Splay) (path : List (Nat × Bool)) :
    Option (Option ((Int × Int) × List (Nat × Bool))) :=
  match path with
  | [] => some none
  | (idx, visitedRight) :: rest => do
    let n ← s.nodes[idx]?
    match visitedRight, n.right with
    | false, some right => do
      let path ← s.towardsMin s.nodes.length right ((idx, true) :: rest)
      pure (some ((n.key, n.value), path))
    | _, _ => pure (some ((n.key, n.value), upwards ((idx, true) :: rest)))

/-- Drive `iterNext` to exhaustion, collecting the yielded pairs. -/
def iterRun (s : Splay) (fuel : Nat) (path : List (Nat × Bool)) : Option (List (Int × Int)) :=
  match fuel with
  | 0 => none
  | fuel + 1 => do
    match ← s.iterNext path with
    | none => pure []
    | some (e, path) => do
      let rest ← s.iterRun fuel path
      pure (e :: rest)

/-- The full sequence yielded by `tree.iter()`. -/
def iterList (s : Splay) : Option (List (Int × Int)) := do
  s.iterRun (s.nodes.length + 1) (← s.iterInit)

/-- Key and value held by the root node, read from the arena. -/
def rootKV (s : Splay) : Option (Int × Int) :=
  (s.root.bind fun r => s.nodes[r]?).map fun n => (n.key, n.value)

end Splay

/-- A `set`/`get` call against the public API. -/
inductive Op where
  | set (key value : Int)
  | get (key : Int)
deriving DecidableEq

/-- Run a sequence of calls from a given state, collecting the result
of every `get` in order. -/
def runFrom (s : Splay) : List Op → Option (Splay × List (Option Int))
  | [] => some (s, [])
  | .set k v :: ops => do
    let s ← s.set k v
    runFrom s ops
  | .get k :: ops => do
    let (s, r) ← s.get k
    let (s', rs) ← runFrom s ops
    pure (s', r :: rs)

/-- Run a sequence of calls starting from `Splay::new()`. -/
def runOps (ops : List Op) : Option (Splay × List (Option Int)) :=
  runFrom Splay.new ops

/-! ## Specification side: inductive trees and the reference map -/

/-- Inductive binary trees, the abstract view of the arena. -/
inductive Tree where
  | leaf
  | node (l : Tree) (key value : Int) (r : Tree)
deriving DecidableEq

namespace Tree

/-- In-order list of `(key, value)` pairs. -/
def inorder : Tree → List (Int × Int)
  | .leaf => []
  | .node l k v r => l.inorder ++ (k, v) :: r.inorder

/-- Number of nodes. -/
def size : Tree → Nat
  | .leaf => 0
  | .node l _ _ r => l.size + r.size + 1

/-- Height (0 for a leaf). -/
def height : Tree → Nat
  | .leaf => 0
  | .node l _ _ r => 1 + max l.height r.height

end Tree

/-- Keys of a tree, in order. -/
def keysT (t : Tree) : List Int := t.inorder.map Prod.fst

/-- Child of a tree in a given direction (leaf for a leaf). -/
def childT : Tree → Dir → Tree
  | .leaf, _ => .leaf
  | .node l _ _ _, .left => l
  | .node _ _ _ r, .right => r

/-- Replace the child of a tree in a given direction. -/
def withChildT : Tree → Dir → Tree → Tree
  | .leaf, _, _ => .leaf
  | .node _ k v r, .left, c => .node c k v r
  | .node l k v _, .right, c => .node l k v c

/-- Shape effect of `Splay::rotate` on the abstract tree: promote the
`dir` child (identity when the rotation is not applicable). -/
def rotT : Tree → Dir → Tree
  | .node (.node ll lk lv lr) k v r, .left => .node ll lk lv (.node lr k v r)
  | .node l k v (.node rl rk rv rr), .right => .node (.node l k v rl) rk rv rr
  | t, _ => t

/-- Shape effect of `Splay::splay_step` on the abstract tree. -/
def splayStepT (t : Tree) : Path → Tree × Path
  | .two d1 d2 => (rotT (withChildT t d1 (rotT (childT t d1) d2)) d1, Path.empty)
  | p => (t, p)

/-- Shape effect of `Splay::splay_finish` on the abstract tree. -/
def splayFinishT (t : Tree) : Path → Tree
  | .one d => rotT t d
  | _ => t

/-- Abstract mirror of `Splay::visit_inner` (including
`visit_inner_helper`), used as the functional specification of the
arena-level recursion.  The request is given as its key `k` and
optional creation value `cv` (`OrCreate.key` and `OrCreate.val`).
`visitLeafT` is the dead-end case of `visit_inner_helper` (for a
creation it attaches a fresh node below the current node in direction
`d`), `descendT` the descent into a child, and `afterStepT` the final
`splay_step` of each level. -/
def visitLeafT (k : Int) (cv : Option Int) (d : Dir) (t : Tree) : Tree × Path × Option Int :=
  match cv with
  | none => (t, Path.empty, none)
  | some v => (withChildT t d (.node .leaf k v .leaf), Path.one d, none)

def afterStepT (rpv : Tree × Path × Option Int) : Tree × Path × Option Int :=
  ((splayStepT rpv.1 rpv.2.1).1, (splayStepT rpv.1 rpv.2.1).2, rpv.2.2)

def descendT (k : Int) (cv : Option Int) (d : Dir) (t : Tree) (child : Tree)
    (recRes : Tree × Path × Option Int) : Tree × Path × Option Int :=
  match child with
  | .leaf => visitLeafT k cv d t
  | .node _ _ _ _ => (withChildT t d recRes.1, recRes.2.1.extend d, recRes.2.2)

def visitInnerT (k : Int) (cv : Option Int) : Tree → Tree × Path × Option Int
  | .leaf => (.leaf, Path.empty, none)
  | .node l k' v' r =>
    afterStepT
      (if k = k' then (Tree.node l k' v' r, Path.empty, cv)
       else if k < k' then descendT k cv .left (.node l k' v' r) l (visitInnerT k cv l)
       else descendT k cv .right (.node l k' v' r) r (visitInnerT k cv r))

/-- Key and value at the root. -/
def rootPair : Tree → Option (Int × Int)
  | .leaf => none
  | .node _ k v _ => some (k, v)

/-- Content of the node a pending path points at: the root for an empty
path, the root's `d` child for a one-step path. -/
def atPath (t : Tree) : Path → Option (Int × Int)
  | .empty => rootPair t
  | .one d => rootPair (childT t d)
  | .two _ _ => none

/-- Modelled from the spec: the node at which the binary search for key
`k` ends — the node holding `k` if it is present, otherwise the last
node visited along the search path (for a creation with value `cv`, the
freshly inserted node).  `searchLeafT` is the dead-end case. -/
def searchLeafT (k : Int) (cv : Option Int) (k' v' : Int) : Int × Int :=
  match cv with
  | none => (k', v')
  | some v => (k, v)

def searchDeadT (k : Int) (cv : Option Int) (k' v' : Int) (child : Tree)
    (recRes : Int × Int) : Int × Int :=
  match child with
  | .leaf => searchLeafT k cv k' v'
  | .node _ _ _ _ => recRes

def searchT (k : Int) (cv : Option Int) : Tree → Int × Int
  | .leaf => (k, 0)
  | .node l k' v' r =>
    if k = k' then (k', v')
    else if k < k' then searchDeadT k cv k' v' l (searchT k cv l)
    else searchDeadT k cv k' v' r (searchT k cv r)

/-- Decode the arena subtree rooted at `idx` into an inductive tree. -/
def decode (s : Splay) : Nat → Option Nat → Option Tree
  | _, none => some .leaf
  | 0, some _ => none
  | fuel + 1, some i => do
    let n ← s.nodes[i]?
    let l ← decode s fuel n.left
    let r ← decode s fuel n.right
    pure (.node l n.key n.value r)

/-- The abstract tree of a container state. -/
def treeOf (s : Splay) : Option Tree := decode s (s.nodes.length + 1) s.root

/-- Modelled from the spec: the reference associative container — a
key-sorted association list.  `refSet` inserts or overwrites, keeping
the list sorted. -/
def refSet (k v : Int) : List (Int × Int) → List (Int × Int)
  | [] => [(k, v)]
  | (k', v') :: m =>
    if k < k' then (k, v) :: (k', v') :: m
    else if k = k' then (k, v) :: m
    else (k', v') :: refSet k v m

/-- Reference lookup in the association list. -/
def refGet (k : Int) : List (Int × Int) → Option Int
  | [] => none
  | (k', v') :: m => if k = k' then some v' else refGet k m

/-- Results the reference container produces for a call sequence. -/
def refRun (m : List (Int × Int)) : List Op → List (Option Int)
  | [] => []
  | .set k v :: ops => refRun (refSet k v m) ops
  | .get k :: ops => refGet k m :: refRun m ops

/-- Reference container state after a call sequence. -/
def refState (m : List (Int × Int)) : List Op → List (Int × Int)
  | [] => m
  | .set k v :: ops => refState (refSet k v m) ops
  | .get _ :: ops => refState m ops

/-- Strictly ascending keys. -/
def SortedKeys (m : List (Int × Int)) : Prop :=
  m.Pairwise fun a b => a.1 < b.1

/-- Modelled from the spec: node-local binary-search-tree ordering —
every key in the left subtree is less than the node's key, every key in
the right subtree greater. -/
def BSTlocal : Tree → Prop
  | .leaf => True
  | .node l k _ r =>
    (∀ k' ∈ keysT l, k' < k) ∧ (∀ k' ∈ keysT r, k < k') ∧ BSTlocal l ∧ BSTlocal r

/-- Modelled from the spec: the value most recently set for a key by a
sequence of `(key, value)` set calls. -/
def lastSet (k : Int) : List (Int × Int) → Option Int
  | [] => none
  | p :: rest =>
    match lastSet k rest with
    | some v => some v
    | none => if p.1 = k then some p.2 else none

/-- Distinct keys ever passed to `set` in a call sequence. -/
def setKeysF : List Op → Finset Int
  | [] => ∅
  | .set k _ :: ops => insert k (setKeysF ops)
  | .get _ :: ops => setKeysF ops

/-- Whether a visit with this request allocates a new node. -/
def created (c : OrCreate) (m : List (Int × Int)) : Bool :=
  match c with
  | .lookup _ => false
  | .create k _ => (refGet k m).isNone

/-- Value returned by `visit` for a request, as a function of the entry
list: `Some` of the new value exactly when a creation finds its key. -/
def visitVal (k : Int) (cv : Option Int) (m : List (Int × Int)) : Option Int :=
  match cv with
  | none => none
  | some v => if (refGet k m).isSome then some v else none

/-- Entry list after a `visit` (which, for a creation on a present key,
does not yet overwrite the value — `set` does that afterwards). -/
def visitEntries (k : Int) (cv : Option Int) (m : List (Int × Int)) : List (Int × Int) :=
  match cv with
  | none => m
  | some v => if (refGet k m).isSome then m else refSet k v m

/-- The arena subtree rooted at `r` holds the inductive tree `t` and
occupies exactly the slot set `u`: slots are read through `nodes[·]?`,
each slot is used once, and the slot sets of the two children are
disjoint from each other and from the root slot. -/
inductive IsTree (s : Splay) : Option Nat → Tree → Finset Nat → Prop where
  | leaf : IsTree s none .leaf ∅
  | node {i : Nat} {k v : Int} {li ri : Option Nat} {l r : Tree} {ul ur : Finset Nat} :
      s.nodes[i]? = some ⟨k, v, li, ri⟩ →
      IsTree s li l ul → IsTree s ri r ur →
      i ∉ ul → i ∉ ur → Disjoint ul ur →
      IsTree s (some i) (.node l k v r) (insert i (ul ∪ ur))

/-- Iterator-stack invariant: relates an iterator stack (head = top) to
the list of entries it has yet to yield.  An entry `(i, false)` still
owes the node at `i` followed by its right subtree; an entry `(i, true)`
owes nothing. -/
inductive Stacked (s : Splay) : List (Nat × Bool) → List (Int × Int) → Prop where
  | nil : Stacked s [] []
  | consFalse {i : Nat} {n : Node} {tr : Tree} {ur : Finset Nat}
      {rest : List (Nat × Bool)} {out : List (Int × Int)} :
      s.nodes[i]? = some n → IsTree s n.right tr ur → Stacked s rest out →
      Stacked s ((i, false) :: rest) ((n.key, n.value) :: (tr.inorder ++ out))
  | consTrue {i : Nat} {rest : List (Nat × Bool)} {out : List (Int × Int)} :
      Stacked s rest out → Stacked s ((i, true) :: rest) out

/-- The reachable-state invariant: the whole arena is one well-formed
tree whose in-order entries are the (key-sorted) reference map `m`. -/
def Inv (s : Splay) (m : List (Int × Int)) : Prop :=
  ∃ t, IsTree s s.root t (Finset.range s.nodes.length) ∧ t.inorder = m ∧ SortedKeys m

/-- Modelled from the spec: the `(key, value)` arguments of the `set`
calls of a sequence, in call order. -/
def setsOf : List Op → List (Int × Int)
  | [] => []
  | .set k v :: ops => (k, v) :: setsOf ops
  | .get _ :: ops => setsOf ops

/-- Modelled from the spec: the results a call sequence must produce —
each `get k` answers with the value most recently set for `k` (`sets`
holds the set calls already executed, oldest first). -/
def specResults (sets : List (Int × Int)) : List Op → List (Option Int)
  | [] => []
  | .set k v :: ops => specResults (sets ++ [(k, v)]) ops
  | .get k :: ops => lastSet k sets :: specResults sets ops

/-- Modelled from the spec: the collapsed zig-zig rotation pair of
section 4.2 — rotate the grandparent edge, then the new top edge, so the
grandchild moves up two levels in one combined step. -/
def zigZigSpecT (t : Tree) (d : Dir) : Tree := rotT (rotT t d) d

/-! ## Lemmas about the reference container -/

theorem refGet_append_of_some {k : Int} {A B : List (Int × Int)} {v : Int}
    (h : refGet k A = some v) : refGet k (A ++ B) = some v := by
  induction A with
  | nil => simp [refGet] at h
  | cons p A ih =>
    obtain ⟨k', v'⟩ := p
    by_cases hk : k = k' <;> simp [refGet, hk] at h ⊢ <;> simp_all

theorem refGet_append_of_none {k : Int} {A B : List (Int × Int)}
    (h : refGet k A = none) : refGet k (A ++ B) = refGet k B := by
  induction A with
  | nil => simp
  | cons p A ih =>
    obtain ⟨k', v'⟩ := p
    by_cases hk : k = k' <;> simp [refGet, hk] at h ⊢ <;> simp_all

theorem refGet_eq_none_iff {k : Int} {m : List (Int × Int)} :
    refGet k m = none ↔ ∀ p ∈ m, p.1 ≠ k := by
  induction m with
  | nil => simp [refGet]
  | cons p m ih =>
    obtain ⟨k', v'⟩ := p
    by_cases hk : k = k' <;> simp [refGet, hk, ih] <;> aesop

theorem refGet_isSome_iff {k : Int} {m : List (Int × Int)} :
    (refGet k m).isSome ↔ k ∈ m.map Prod.fst := by
  rw [Option.isSome_iff_ne_none, ne_eq, refGet_eq_none_iff]
  simp only [List.mem_map, not_forall]
  constructor
  · rintro ⟨p, hp, hne⟩
    exact ⟨p, hp, by simpa using hne⟩
  · rintro ⟨p, hp, hfst⟩
    exact ⟨p, hp, by simp [hfst]⟩

theorem mem_refSet {k v : Int} {m : List (Int × Int)} {b : Int × Int}
    (hb : b ∈ refSet k v m) : b = (k, v) ∨ b ∈ m := by
  induction m with
  | nil => simpa [refSet] using hb
  | cons p m ih =>
    obtain ⟨kp, vp⟩ := p
    rcases lt_trichotomy k kp with h1 | h1 | h1
    · rw [refSet, if_pos h1] at hb
      rcases List.mem_cons.1 hb with rfl | hb
      · exact Or.inl rfl
      · exact Or.inr hb
    · rw [refSet, if_neg (by omega), if_pos h1] at hb
      rcases List.mem_cons.1 hb with rfl | hb
      · exact Or.inl rfl
      · exact Or.inr (List.mem_cons_of_mem _ hb)
    · rw [refSet, if_neg (by omega), if_neg (by omega)] at hb
      rcases List.mem_cons.1 hb with rfl | hb
      · exact Or.inr (List.mem_cons_self _ _)
      · rcases ih hb with h | h
        · exact Or.inl h
        · exact Or.inr (List.mem_cons_of_mem _ h)

theorem refSet_sorted {k v : Int} {m : List (Int × Int)} (h : SortedKeys m) :
    SortedKeys (refSet k v m) := by
  induction m with
  | nil => simp [refSet, SortedKeys]
  | cons p m ih =>
    obtain ⟨k', v'⟩ := p
    rw [SortedKeys, List.pairwise_cons] at h
    obtain ⟨hlt, hm⟩ := h
    rcases lt_trichotomy k k' with h1 | h1 | h1
    · rw [refSet, if_pos h1]
      refine List.Pairwise.cons ?_ (List.Pairwise.cons hlt hm)
      intro b hb
      rcases List.mem_cons.1 hb with rfl | hb
      · exact h1
      · exact h1.trans (hlt b hb)
    · rw [refSet, if_neg (by omega), if_pos h1]
      exact List.Pairwise.cons (by simpa [h1] using hlt) hm
    · rw [refSet, if_neg (by omega), if_neg (by omega)]
      refine List.Pairwise.cons ?_ (ih hm)
      intro b hb
      rcases mem_refSet hb with rfl | hb
      · exact h1
      · exact hlt b hb

theorem refGet_refSet_self {k v : Int} {m : List (Int × Int)} :
    refGet k (refSet k v m) = some v := by
  induction m with
  | nil => simp [refSet, refGet]
  | cons p m ih =>
    obtain ⟨k', v'⟩ := p
    rcases lt_trichotomy k k' with h1 | h1 | h1
    · rw [refSet, if_pos h1, refGet, if_pos rfl]
    · rw [refSet, if_neg (by omega), if_pos h1, refGet, if_pos rfl]
    · rw [refSet, if_neg (by omega), if_neg (by omega), refGet, if_neg (by omega)]
      exact ih

theorem refGet_refSet_ne {k v k' : Int} {m : List (Int × Int)} (h : k' ≠ k) :
    refGet k' (refSet k v m) = refGet k' m := by
  induction m with
  | nil => simp [refSet, refGet, h]
  | cons p m ih =>
    obtain ⟨kp, vp⟩ := p
    rcases lt_trichotomy k kp with h1 | h1 | h1
    · rw [refSet, if_pos h1, refGet, if_neg h]
    · rw [refSet, if_neg (by omega), if_pos h1, refGet, if_neg h, refGet, ← h1,
        if_neg h]
    · rw [refSet, if_neg (by omega), if_neg (by omega), refGet, refGet]
      by_cases hk : k' = kp
      · simp [hk]
      · simp [hk, ih]

theorem keys_refSet_toFinset {k v : Int} {m : List (Int × Int)} :
    ((refSet k v m).map Prod.fst).toFinset = insert k (m.map Prod.fst).toFinset := by
  induction m with
  | nil => simp [refSet]
  | cons p m ih =>
    obtain ⟨kp, vp⟩ := p
    rcases lt_trichotomy k kp with h1 | h1 | h1
    · rw [refSet, if_pos h1]; simp
    · rw [refSet, if_neg (by omega), if_pos h1]
      subst h1; simp
    · rw [refSet, if_neg (by omega), if_neg (by omega)]
      simp only [List.map_cons, List.toFinset_cons, ih]
      ext a; simp; tauto

theorem length_refSet {k v : Int} {m : List (Int × Int)} (hs : SortedKeys m) :
    (refSet k v m).length = if (refGet k m).isSome then m.length else m.length + 1 := by
  induction m with
  | nil => simp [refSet, refGet]
  | cons p m ih =>
    obtain ⟨kp, vp⟩ := p
    rw [SortedKeys, List.pairwise_cons] at hs
    obtain ⟨hlt, hm⟩ := hs
    rcases lt_trichotomy k kp with h1 | h1 | h1
    · rw [refSet, if_pos h1]
      have : refGet k ((kp, vp) :: m) = none := by
        rw [refGet_eq_none_iff]
        intro p hp
        rcases List.mem_cons.1 hp with rfl | hp
        · exact fun h => absurd h.symm (ne_of_lt h1)
        · exact fun h => absurd (h ▸ h1) (not_lt.2 (le_of_lt (hlt p hp)))
      simp [this]
    · rw [refSet, if_neg (by omega), if_pos h1]
      simp [refGet, h1]
    · rw [refSet, if_neg (by omega), if_neg (by omega)]
      simp only [List.length_cons, ih hm, refGet, if_neg (show ¬k = kp by omega)]
      by_cases h : (refGet k m).isSome <;> simp [h]

theorem mem_iff_refGet {k v : Int} {m : List (Int × Int)} (h : SortedKeys m) :
    (k, v) ∈ m ↔ refGet k m = some v := by
  induction m with
  | nil => simp [refGet]
  | cons p m ih =>
    obtain ⟨kp, vp⟩ := p
    rw [SortedKeys, List.pairwise_cons] at h
    obtain ⟨hlt, hm⟩ := h
    by_cases hk : k = kp
    · subst hk
      rw [refGet, if_pos rfl]
      constructor
      · intro hmem
        rcases List.mem_cons.1 hmem with heq | hmem
        · rw [show v = vp from congrArg Prod.snd heq]
        · exact absurd (hlt _ hmem) (lt_irrefl k)
      · intro hv
        obtain rfl : vp = v := Option.some.inj hv
        exact List.mem_cons.2 (Or.inl rfl)
    · rw [refGet, if_neg hk, List.mem_cons, ih hm]
      constructor
      · rintro (heq | h)
        · exact absurd (congrArg Prod.fst heq) hk
        · exact h
      · exact Or.inr

theorem refSet_append_left {k v k' v' : Int} {A B : List (Int × Int)} (h : k < k') :
    refSet k v (A ++ (k', v') :: B) = refSet k v A ++ (k', v') :: B := by
  induction A with
  | nil => simp [refSet, if_pos h]
  | cons p A ih =>
    obtain ⟨kp, vp⟩ := p
    rcases lt_trichotomy k kp with h1 | h1 | h1
    · simp [refSet, if_pos h1]
    · simp [refSet, if_neg (show ¬k < kp by omega), if_pos h1]
    · simp [refSet, if_neg (show ¬k < kp by omega), if_neg (show ¬k = kp by omega), ih]

theorem refSet_append_right {k v k' v' : Int} {A B : List (Int × Int)}
    (hA : ∀ p ∈ A, p.1 < k) (h : k' < k) :
    refSet k v (A ++ (k', v') :: B) = A ++ (k', v') :: refSet k v B := by
  induction A with
  | nil =>
    simp [refSet, if_neg (show ¬k < k' by omega), if_neg (show ¬k = k' by omega)]
  | cons p A ih =>
    obtain ⟨kp, vp⟩ := p
    have hp : kp < k := hA (kp, vp) (List.mem_cons_self _ _)
    simp only [List.cons_append, refSet, if_neg (show ¬k < kp by omega),
      if_neg (show ¬k = kp by omega), List.append_eq]
    rw [ih (fun p hp => hA p (List.mem_cons_of_mem _ hp))]

theorem refSet_append_self {k v w : Int} {A B : List (Int × Int)}
    (hA : ∀ p ∈ A, p.1 < k) :
    refSet k v (A ++ (k, w) :: B) = A ++ (k, v) :: B := by
  induction A with
  | nil => simp [refSet]
  | cons p A ih =>
    obtain ⟨kp, vp⟩ := p
    have hp : kp < k := hA (kp, vp) (List.mem_cons_self _ _)
    simp only [List.cons_append, refSet, if_neg (show ¬k < kp by omega),
      if_neg (show ¬k = kp by omega), List.append_eq]
    rw [ih (fun p hp => hA p (List.mem_cons_of_mem _ hp))]

/-! ## Lemmas about abstract trees -/

theorem inorder_length (t : Tree) : t.inorder.length = t.size := by
  induction t with
  | leaf => rfl
  | node l k v r ihl ihr => simp [Tree.inorder, Tree.size, ihl, ihr]; omega

theorem height_le_size (t : Tree) : t.height ≤ t.size := by
  induction t with
  | leaf => exact Nat.le_refl 0
  | node l k v r ihl ihr => simp [Tree.height, Tree.size]; omega

theorem inorder_rotT (t : Tree) (d : Dir) : (rotT t d).inorder = t.inorder := by
  cases d with
  | left =>
    cases t with
    | leaf => rfl
    | node l k v r => cases l <;> simp [rotT, Tree.inorder]
  | right =>
    cases t with
    | leaf => rfl
    | node l k v r => cases r <;> simp [rotT, Tree.inorder]

theorem rotT_ne_leaf {t : Tree} (h : t ≠ .leaf) (d : Dir) : rotT t d ≠ .leaf := by
  cases t with
  | leaf => exact absurd rfl h
  | node l k v r =>
    cases d with
    | left => cases l <;> simp [rotT]
    | right => cases r <;> simp [rotT]

theorem rootPair_rotT_of_child {t : Tree} {d : Dir} {a b : Tree} {tk tv : Int}
    (h : childT t d = .node a tk tv b) : rootPair (rotT t d) = some (tk, tv) := by
  cases d <;> cases t <;> simp [childT] at h <;> simp [rotT, h, rootPair]

theorem inorder_splayStepT (t : Tree) (p : Path) :
    (splayStepT t p).1.inorder = t.inorder := by
  cases p with
  | empty => rfl
  | one d => rfl
  | two d1 d2 =>
    cases t with
    | leaf => cases d1 <;> cases d2 <;> rfl
    | node l k v r =>
      cases d1 <;>
        simp [splayStepT, childT, withChildT, inorder_rotT, Tree.inorder]

theorem sorted_node {l r : Tree} {k v : Int}
    (h : SortedKeys (Tree.node l k v r).inorder) :
    SortedKeys l.inorder ∧ SortedKeys r.inorder ∧
      (∀ p ∈ l.inorder, p.1 < k) ∧ (∀ p ∈ r.inorder, k < p.1) := by
  rw [Tree.inorder, SortedKeys, List.pairwise_append] at h
  obtain ⟨hl, hr, hx⟩ := h
  rw [List.pairwise_cons] at hr
  exact ⟨hl, hr.2, fun p hp => hx p hp _ (List.mem_cons_self _ _),
    fun p hp => hr.1 p hp⟩

theorem refGet_node_lt {l r : Tree} {k' v' k : Int}
    (h : SortedKeys (Tree.node l k' v' r).inorder) (hk : k < k') :
    refGet k (Tree.node l k' v' r).inorder = refGet k l.inorder := by
  obtain ⟨hl, hr, hbl, hbr⟩ := sorted_node h
  rw [Tree.inorder]
  cases hg : refGet k l.inorder with
  | some w => exact refGet_append_of_some hg
  | none =>
    rw [refGet_append_of_none hg, refGet, if_neg (ne_of_lt hk)]
    rw [refGet_eq_none_iff]
    intro p hp hh
    have := hbr p hp
    omega

theorem refGet_node_eq {l r : Tree} {k' v' : Int}
    (h : SortedKeys (Tree.node l k' v' r).inorder) :
    refGet k' (Tree.node l k' v' r).inorder = some v' := by
  obtain ⟨hl, hr, hbl, hbr⟩ := sorted_node h
  rw [Tree.inorder]
  have hg : refGet k' l.inorder = none := by
    rw [refGet_eq_none_iff]
    intro p hp hh
    have := hbl p hp
    omega
  rw [refGet_append_of_none hg, refGet, if_pos rfl]

theorem refGet_node_gt {l r : Tree} {k' v' k : Int}
    (h : SortedKeys (Tree.node l k' v' r).inorder) (hk : k' < k) :
    refGet k (Tree.node l k' v' r).inorder = refGet k r.inorder := by
  obtain ⟨hl, hr, hbl, hbr⟩ := sorted_node h
  rw [Tree.inorder]
  have hg : refGet k l.inorder = none := by
    rw [refGet_eq_none_iff]
    intro p hp hh
    have := hbl p hp
    omega
  rw [refGet_append_of_none hg, refGet, if_neg (by omega)]

theorem visitVal_node_lt {k : Int} {cv : Option Int} {l r : Tree} {k' v' : Int}
    (h : SortedKeys (Tree.node l k' v' r).inorder) (hk : k < k') :
    visitVal k cv (Tree.node l k' v' r).inorder = visitVal k cv l.inorder := by
  cases cv with
  | none => rfl
  | some v => simp only [visitVal, refGet_node_lt h hk]

theorem visitVal_node_gt {k : Int} {cv : Option Int} {l r : Tree} {k' v' : Int}
    (h : SortedKeys (Tree.node l k' v' r).inorder) (hk : k' < k) :
    visitVal k cv (Tree.node l k' v' r).inorder = visitVal k cv r.inorder := by
  cases cv with
  | none => rfl
  | some v => simp only [visitVal, refGet_node_gt h hk]

theorem visitEntries_node_lt {k : Int} {cv : Option Int} {l r : Tree} {k' v' : Int}
    (h : SortedKeys (Tree.node l k' v' r).inorder) (hk : k < k') :
    visitEntries k cv (Tree.node l k' v' r).inorder
      = visitEntries k cv l.inorder ++ (k', v') :: r.inorder := by
  cases cv with
  | none => rfl
  | some v =>
    simp only [visitEntries, refGet_node_lt h hk]
    by_cases hg : (refGet k l.inorder).isSome
    · rw [if_pos hg, if_pos hg]; rfl
    · rw [if_neg hg, if_neg hg, Tree.inorder]
      exact refSet_append_left hk

theorem visitEntries_node_gt {k : Int} {cv : Option Int} {l r : Tree} {k' v' : Int}
    (h : SortedKeys (Tree.node l k' v' r).inorder) (hk : k' < k) :
    visitEntries k cv (Tree.node l k' v' r).inorder
      = l.inorder ++ (k', v') :: visitEntries k cv r.inorder := by
  cases cv with
  | none => rfl
  | some v =>
    obtain ⟨hsl, hsr, hbl, hbr⟩ := sorted_node h
    simp only [visitEntries, refGet_node_gt h hk]
    by_cases hg : (refGet k r.inorder).isSome
    · rw [if_pos hg, if_pos hg]; rfl
    · rw [if_neg hg, if_neg hg, Tree.inorder]
      exact refSet_append_right (fun p hp => lt_trans (hbl p hp) hk) hk

/-- Functional specification of the abstract visit: the result is a
node, the pending path points at the search target, the returned value
is `visitVal`, and the entries become `visitEntries`. -/
theorem visitInnerT_spec {k : Int} {cv : Option Int} {t : Tree} (ht : t ≠ .leaf)
    (hs : SortedKeys t.inorder) :
    (visitInnerT k cv t).1 ≠ .leaf ∧
    atPath (visitInnerT k cv t).1 (visitInnerT k cv t).2.1 = some (searchT k cv t) ∧
    (visitInnerT k cv t).2.2 = visitVal k cv t.inorder ∧
    (visitInnerT k cv t).1.inorder = visitEntries k cv t.inorder := by
  induction t with
  | leaf => exact absurd rfl ht
  | node l k' v' r ihl ihr =>
    obtain ⟨hsl, hsr, hbl, hbr⟩ := sorted_node hs
    rcases lt_trichotomy k k' with hcmp | hcmp | hcmp
    · -- descend left
      have hne : k ≠ k' := ne_of_lt hcmp
      cases l with
      | leaf =>
        cases cv with
        | none =>
          refine ⟨?_, ?_, ?_, ?_⟩ <;>
            simp [visitInnerT, afterStepT, descendT, visitLeafT, splayStepT,
              hne, hcmp, atPath, rootPair, searchT, searchDeadT, searchLeafT,
              visitVal, visitEntries]
        | some v =>
          have hget : refGet k (Tree.node .leaf k' v' r).inorder = none := by
            rw [refGet_node_lt hs hcmp]; rfl
          refine ⟨?_, ?_, ?_, ?_⟩
          · simp [visitInnerT, afterStepT, descendT, visitLeafT, withChildT,
              splayStepT, hne, hcmp]
          · simp [visitInnerT, afterStepT, descendT, visitLeafT, withChildT,
              splayStepT, hne, hcmp, atPath, childT, rootPair, searchT,
              searchDeadT, searchLeafT]
          · simp [visitInnerT, afterStepT, descendT, visitLeafT, withChildT,
              splayStepT, hne, hcmp, visitVal, hget]
          · have hents : visitEntries k (some v) (Tree.node .leaf k' v' r).inorder
                = refSet k v (Tree.node .leaf k' v' r).inorder := by
              simp [visitEntries, hget]
            rw [hents]
            simp [visitInnerT, afterStepT, descendT, visitLeafT, withChildT,
              splayStepT, hne, hcmp, Tree.inorder, refSet, if_pos hcmp]
      | node la lk lv lb =>
        obtain ⟨ihne, ihat, ihval, ihino⟩ := ihl (by simp) hsl
        have hred : visitInnerT k cv (Tree.node (.node la lk lv lb) k' v' r)
            = afterStepT (Tree.node (visitInnerT k cv (.node la lk lv lb)).1 k' v' r,
                (visitInnerT k cv (.node la lk lv lb)).2.1.extend .left,
                (visitInnerT k cv (.node la lk lv lb)).2.2) := by
          simp [visitInnerT, descendT, withChildT, hne, hcmp]
        rw [hred]
        have hsearch : searchT k cv (Tree.node (.node la lk lv lb) k' v' r)
            = searchT k cv (.node la lk lv lb) := by
          simp [searchT, searchDeadT, hne, hcmp]
        rw [hsearch]
        cases hpl : (visitInnerT k cv (Tree.node la lk lv lb)).2.1 with
        | two d1 d2 =>
          rw [hpl] at ihat
          simp [atPath] at ihat
        | empty =>
          rw [hpl] at ihat
          simp only [afterStepT, Path.extend, splayStepT]
          refine ⟨by simp, ?_, ?_, ?_⟩
          · simpa [atPath, childT] using ihat
          · rw [ihval, visitVal_node_lt hs hcmp]
          · rw [Tree.inorder, ihino, visitEntries_node_lt hs hcmp]
        | one d2 =>
          rw [hpl] at ihat
          simp only [atPath] at ihat
          cases hcd : childT (visitInnerT k cv (Tree.node la lk lv lb)).1 d2 with
          | leaf => rw [hcd] at ihat; simp [rootPair] at ihat
          | node ca ck cvv cb =>
            rw [hcd] at ihat
            simp only [rootPair, Option.some.injEq] at ihat
            simp only [afterStepT, Path.extend, splayStepT, childT, withChildT]
            have hrc : rootPair (rotT (visitInnerT k cv (Tree.node la lk lv lb)).1 d2)
                = some (ck, cvv) := rootPair_rotT_of_child hcd
            cases hrot : rotT (visitInnerT k cv (Tree.node la lk lv lb)).1 d2 with
            | leaf => rw [hrot] at hrc; simp [rootPair] at hrc
            | node xa xk xv xb =>
              rw [hrot] at hrc
              simp only [rootPair, Option.some.injEq] at hrc
              refine ⟨by simp [rotT], ?_, ?_, ?_⟩
              · simp only [rotT, atPath, rootPair, hrc, ihat]
              · rw [ihval, visitVal_node_lt hs hcmp]
              · rw [inorder_rotT, Tree.inorder, ← hrot, inorder_rotT, ihino,
                  visitEntries_node_lt hs hcmp]
    · -- key found at this node
      have hget : refGet k (Tree.node l k' v' r).inorder = some v' := by
        rw [hcmp]; exact refGet_node_eq hs
      refine ⟨?_, ?_, ?_, ?_⟩
      · simp [visitInnerT, afterStepT, splayStepT, if_pos hcmp]
      · simp [visitInnerT, afterStepT, splayStepT, searchT, if_pos hcmp,
          atPath, rootPair]
      · simp only [visitInnerT, afterStepT, splayStepT, if_pos hcmp]
        cases cv with
        | none => rfl
        | some v => simp [visitVal, hget]
      · simp only [visitInnerT, afterStepT, splayStepT, if_pos hcmp]
        cases cv with
        | none => rfl
        | some v => simp [visitEntries, hget]
    · -- descend right
      have hne : k ≠ k' := ne_of_gt hcmp
      have hnlt : ¬k < k' := not_lt.2 (le_of_lt hcmp)
      cases r with
      | leaf =>
        cases cv with
        | none =>
          refine ⟨?_, ?_, ?_, ?_⟩ <;>
            simp [visitInnerT, afterStepT, descendT, visitLeafT, splayStepT,
              hne, hnlt, atPath, rootPair, searchT, searchDeadT, searchLeafT,
              visitVal, visitEntries]
        | some v =>
          have hget : refGet k (Tree.node l k' v' .leaf).inorder = none := by
            rw [refGet_node_gt hs hcmp]; rfl
          refine ⟨?_, ?_, ?_, ?_⟩
          · simp [visitInnerT, afterStepT, descendT, visitLeafT, withChildT,
              splayStepT, hne, hnlt]
          · simp [visitInnerT, afterStepT, descendT, visitLeafT, withChildT,
              splayStepT, hne, hnlt, atPath, childT, rootPair, searchT,
              searchDeadT, searchLeafT]
          · simp [visitInnerT, afterStepT, descendT, visitLeafT, withChildT,
              splayStepT, hne, hnlt, visitVal, hget]
          · have hents : visitEntries k (some v) (Tree.node l k' v' .leaf).inorder
                = refSet k v (Tree.node l k' v' .leaf).inorder := by
              simp [visitEntries, hget]
            rw [hents, Tree.inorder,
              refSet_append_right (fun p hp => lt_trans (hbl p hp) hcmp) hcmp]
            simp [visitInnerT, afterStepT, descendT, visitLeafT, withChildT,
              splayStepT, hne, hnlt, Tree.inorder, refSet]
      | node ra rk rv rb =>
        obtain ⟨ihne, ihat, ihval, ihino⟩ := ihr (by simp) hsr
        have hred : visitInnerT k cv (Tree.node l k' v' (.node ra rk rv rb))
            = afterStepT (Tree.node l k' v' (visitInnerT k cv (.node ra rk rv rb)).1,
                (visitInnerT k cv (.node ra rk rv rb)).2.1.extend .right,
                (visitInnerT k cv (.node ra rk rv rb)).2.2) := by
          simp [visitInnerT, descendT, withChildT, hne, hnlt]
        rw [hred]
        have hsearch : searchT k cv (Tree.node l k' v' (.node ra rk rv rb))
            = searchT k cv (.node ra rk rv rb) := by
          simp [searchT, searchDeadT, hne, hnlt]
        rw [hsearch]
        cases hpl : (visitInnerT k cv (Tree.node ra rk rv rb)).2.1 with
        | two d1 d2 =>
          rw [hpl] at ihat
          simp [atPath] at ihat
        | empty =>
          rw [hpl] at ihat
          simp only [afterStepT, Path.extend, splayStepT]
          refine ⟨by simp, ?_, ?_, ?_⟩
          · simpa [atPath, childT] using ihat
          · rw [ihval, visitVal_node_gt hs hcmp]
          · rw [Tree.inorder, ihino, visitEntries_node_gt hs hcmp]
        | one d2 =>
          rw [hpl] at ihat
          simp only [atPath] at ihat
          cases hcd : childT (visitInnerT k cv (Tree.node ra rk rv rb)).1 d2 with
          | leaf => rw [hcd] at ihat; simp [rootPair] at ihat
          | node ca ck cvv cb =>
            rw [hcd] at ihat
            simp only [rootPair, Option.some.injEq] at ihat
            simp only [afterStepT, Path.extend, splayStepT, childT, withChildT]
            have hrc : rootPair (rotT (visitInnerT k cv (Tree.node ra rk rv rb)).1 d2)
                = some (ck, cvv) := rootPair_rotT_of_child hcd
            cases hrot : rotT (visitInnerT k cv (Tree.node ra rk rv rb)).1 d2 with
            | leaf => rw [hrot] at hrc; simp [rootPair] at hrc
            | node xa xk xv xb =>
              rw [hrot] at hrc
              simp only [rootPair, Option.some.injEq] at hrc
              refine ⟨by simp [rotT], ?_, ?_, ?_⟩
              · simp only [rotT, atPath, rootPair, hrc, ihat]
              · rw [ihval, visitVal_node_gt hs hcmp]
              · rw [inorder_rotT, Tree.inorder, ← hrot, inorder_rotT, ihino,
                  visitEntries_node_gt hs hcmp]

/-! ## The arena abstraction relation -/

theorem getElem?_lt {α : Type} {l : List α} {j : Nat} {a : α}
    (h : l[j]? = some a) : j < l.length := by
  by_contra hc
  rw [List.getElem?_eq_none (by omega)] at h
  exact Option.noConfusion h

theorem IsTree.mem_root {s : Splay} {i : Nat} {t : Tree} {u : Finset Nat}
    (h : IsTree s (some i) t u) : i ∈ u := by
  cases h with
  | node _ _ _ _ _ _ => exact Finset.mem_insert_self _ _

theorem IsTree.ne_leaf {s : Splay} {i : Nat} {t : Tree} {u : Finset Nat}
    (h : IsTree s (some i) t u) : t ≠ .leaf := by
  cases h with
  | node _ _ _ _ _ _ => simp

theorem IsTree.none_leaf {s : Splay} {t : Tree} {u : Finset Nat}
    (h : IsTree s none t u) : t = .leaf ∧ u = ∅ := by
  cases h with
  | leaf => exact ⟨rfl, rfl⟩

theorem IsTree.lt_length {s : Splay} {r : Option Nat} {t : Tree} {u : Finset Nat}
    (h : IsTree s r t u) : ∀ j ∈ u, j < s.nodes.length := by
  induction h with
  | leaf => simp
  | node hn _ _ hi1 hi2 hd ihl ihr =>
    intro j hj
    rcases Finset.mem_insert.1 hj with rfl | hj
    · exact getElem?_lt hn
    · rcases Finset.mem_union.1 hj with hj | hj
      · exact ihl j hj
      · exact ihr j hj

theorem IsTree.size_eq {s : Splay} {r : Option Nat} {t : Tree} {u : Finset Nat}
    (h : IsTree s r t u) : t.size = u.card := by
  induction h with
  | leaf => simp [Tree.size]
  | @node i k v li ri l r ul ur hn hl hr hi1 hi2 hd ihl ihr =>
    have h1 : (insert i (ul ∪ ur)).card = (ul ∪ ur).card + 1 :=
      Finset.card_insert_of_not_mem (by
        intro hmem
        rcases Finset.mem_union.1 hmem with hm | hm
        · exact hi1 hm
        · exact hi2 hm)
    have h2 : (ul ∪ ur).card = ul.card + ur.card := Finset.card_union_of_disjoint hd
    rw [Tree.size, ihl, ihr]
    omega

theorem IsTree.frame {s s' : Splay} {r : Option Nat} {t : Tree} {u : Finset Nat}
    (hagree : ∀ x ∈ u, s'.nodes[x]? = s.nodes[x]?) (h : IsTree s r t u) :
    IsTree s' r t u := by
  induction h with
  | leaf => exact IsTree.leaf
  | @node i k v li ri l r ul ur hn hl hr hi1 hi2 hd ihl ihr =>
    refine IsTree.node ?_ (ihl fun x hx => hagree x ?_) (ihr fun x hx => hagree x ?_)
      hi1 hi2 hd
    · rw [hagree i (Finset.mem_insert_self _ _)]; exact hn
    · exact Finset.mem_insert_of_mem (Finset.mem_union_left _ hx)
    · exact Finset.mem_insert_of_mem (Finset.mem_union_right _ hx)

/-- Success and slot-level effect of `Splay::rotate`: the two slots of
the rotated edge are relinked and their contents swapped; all other
slots are untouched. -/
theorem rotate_spec {s : Splay} {i j : Nat} {d : Dir} {n m : Node}
    (hn : s.nodes[i]? = some n) (hj : n.dirChild d = some j)
    (hm : s.nodes[j]? = some m) (hij : i ≠ j) :
    s.rotate i d = some
      { s with nodes := ((s.nodes.set i (n.withDir d (m.dirChild d.flip))).set j
            (m.withDir d.flip (some j))).set i (m.withDir d.flip (some j))
          |>.set j (n.withDir d (m.dirChild d.flip)) } := by
  have hi : i < s.nodes.length := getElem?_lt hn
  have hjl : j < s.nodes.length := getElem?_lt hm
  rw [Splay.rotate]
  rw [Splay.child, hn]
  simp only [Option.map_some', Option.some_bind, Option.bind_eq_bind, hj]
  rw [Splay.child, hm]
  simp only [Option.map_some', Option.some_bind, Option.bind_eq_bind]
  rw [Splay.setChild, hn]
  simp only [Option.map_some', Option.some_bind, Option.bind_eq_bind]
  rw [Splay.setChild]
  simp only [List.getElem?_set_ne hij, hm, Option.map_some', Option.some_bind,
    Option.bind_eq_bind]
  rw [Splay.swapNodes]
  have h1 : (((s.nodes.set i (n.withDir d (m.dirChild d.flip))).set j
      (m.withDir d.flip (some j))))[i]? = some (n.withDir d (m.dirChild d.flip)) := by
    rw [List.getElem?_set_ne (Ne.symm hij), List.getElem?_set_eq (by simpa using hi)]
  have h2 : (((s.nodes.set i (n.withDir d (m.dirChild d.flip))).set j
      (m.withDir d.flip (some j))))[j]? = some (m.withDir d.flip (some j)) := by
    rw [List.getElem?_set_eq (by simpa using hjl)]
  rw [h1, h2]
  simp only [Option.some_bind, Option.bind_eq_bind]
  rfl

/-- `Splay::rotate` refines the abstract rotation `rotT`: the subtree
root keeps its arena slot, the slot set is unchanged, and slots outside
the subtree are untouched. -/
theorem rotate_sim {s : Splay} {i : Nat} {d : Dir} {t : Tree} {u : Finset Nat}
    (hT : IsTree s (some i) t u) (hc : childT t d ≠ .leaf) :
    ∃ s', s.rotate i d = some s' ∧ IsTree s' (some i) (rotT t d) u ∧
      s'.root = s.root ∧ s'.nodes.length = s.nodes.length ∧
      ∀ x ∉ u, s'.nodes[x]? = s.nodes[x]? := by
  cases hT with
  | @node i k v li ri l r ul ur hn hl hr hi1 hi2 hd =>
    cases d with
    | left =>
      rw [show childT (Tree.node l k v r) Dir.left = l from rfl] at hc
      cases l with
      | leaf => exact absurd rfl hc
      | node ll lk lv lr =>
        cases hl with
        | @node j lk2 lv2 lli lri ll2 lr2 ull ulr hln hll hlr hli1 hli2 hld =>
          have hij : i ≠ j := by
            intro hh
            exact hi1 (hh ▸ Finset.mem_insert_self _ _)
          have hrs := rotate_spec hn (show Node.dirChild ⟨k, v, some j, ri⟩ .left = some j from rfl)
            hln hij
          refine ⟨_, hrs, ?_, rfl, by simp, ?_⟩
          · -- the rotated tree lives at the same slots
            have hgi : ((((s.nodes.set i (Node.withDir ⟨k, v, some j, ri⟩ .left
                (Node.dirChild ⟨lk, lv, lli, lri⟩ Dir.left.flip))).set j
                (Node.withDir ⟨lk, lv, lli, lri⟩ Dir.left.flip (some j))).set i
                (Node.withDir ⟨lk, lv, lli, lri⟩ Dir.left.flip (some j))).set j
                (Node.withDir ⟨k, v, some j, ri⟩ .left
                  (Node.dirChild ⟨lk, lv, lli, lri⟩ Dir.left.flip)))[i]?
                = some ⟨lk, lv, lli, some j⟩ := by
              rw [List.getElem?_set_ne (Ne.symm hij),
                List.getElem?_set_eq (by simpa using getElem?_lt hn)]
              rfl
            have hgj : ((((s.nodes.set i (Node.withDir ⟨k, v, some j, ri⟩ .left
                (Node.dirChild ⟨lk, lv, lli, lri⟩ Dir.left.flip))).set j
                (Node.withDir ⟨lk, lv, lli, lri⟩ Dir.left.flip (some j))).set i
                (Node.withDir ⟨lk, lv, lli, lri⟩ Dir.left.flip (some j))).set j
                (Node.withDir ⟨k, v, some j, ri⟩ .left
                  (Node.dirChild ⟨lk, lv, lli, lri⟩ Dir.left.flip)))[j]?
                = some ⟨k, v, lri, ri⟩ := by
              rw [List.getElem?_set_eq (by simpa using getElem?_lt hln)]
              rfl
            have hother : ∀ x, x ≠ i → x ≠ j →
                ((((s.nodes.set i (Node.withDir ⟨k, v, some j, ri⟩ .left
                (Node.dirChild ⟨lk, lv, lli, lri⟩ Dir.left.flip))).set j
                (Node.withDir ⟨lk, lv, lli, lri⟩ Dir.left.flip (some j))).set i
                (Node.withDir ⟨lk, lv, lli, lri⟩ Dir.left.flip (some j))).set j
                (Node.withDir ⟨k, v, some j, ri⟩ .left
                  (Node.dirChild ⟨lk, lv, lli, lri⟩ Dir.left.flip)))[x]?
                = s.nodes[x]? := by
              intro x hxi hxj
              rw [List.getElem?_set_ne (Ne.symm hxj), List.getElem?_set_ne (Ne.symm hxi),
                List.getElem?_set_ne (Ne.symm hxj), List.getElem?_set_ne (Ne.symm hxi)]
            have hxul : ∀ x ∈ ull, x ≠ i ∧ x ≠ j := fun x hx =>
              ⟨fun hh => hi1 (hh ▸ Finset.mem_insert_of_mem (Finset.mem_union_left _ hx)),
               fun hh => hli1 (hh ▸ hx)⟩
            have hxulr : ∀ x ∈ ulr, x ≠ i ∧ x ≠ j := fun x hx =>
              ⟨fun hh => hi1 (hh ▸ Finset.mem_insert_of_mem (Finset.mem_union_right _ hx)),
               fun hh => hli2 (hh ▸ hx)⟩
            have hxur : ∀ x ∈ ur, x ≠ i ∧ x ≠ j := fun x hx =>
              ⟨fun hh => hi2 (hh ▸ hx),
               fun hh => (Finset.disjoint_left.1 hd)
                 (hh ▸ Finset.mem_insert_self _ _) hx⟩
            have hsets : insert i (ull ∪ insert j (ulr ∪ ur))
                = insert i (insert j (ull ∪ ulr) ∪ ur) := by
              ext a
              simp only [Finset.mem_insert, Finset.mem_union]
              tauto
            have hrw : rotT (Tree.node (.node ll lk lv lr) k v r) .left
                = Tree.node ll lk lv (.node lr k v r) := by simp [rotT]
            rw [hrw, ← hsets]
            refine IsTree.node hgi ?_ (IsTree.node hgj ?_ ?_ hli2 ?_ ?_) ?_ ?_ ?_
            · exact IsTree.frame (fun x hx => hother x (hxul x hx).1 (hxul x hx).2) hll
            · exact IsTree.frame (fun x hx => hother x (hxulr x hx).1 (hxulr x hx).2) hlr
            · exact IsTree.frame (fun x hx => hother x (hxur x hx).1 (hxur x hx).2) hr
            · intro hmem
              exact ((hxur j hmem).2) rfl
            · exact Finset.disjoint_left.2 fun x hx hx2 =>
                (Finset.disjoint_left.1 hd)
                  (Finset.mem_insert_of_mem (Finset.mem_union_right _ hx)) hx2
            · intro hmem
              exact (hxul i hmem).1 rfl
            · intro hmem
              rcases Finset.mem_insert.1 hmem with hh | hh
              · exact hij hh
              · rcases Finset.mem_union.1 hh with hh | hh
                · exact hi1 (Finset.mem_insert_of_mem (Finset.mem_union_right _ hh))
                · exact hi2 hh
            · refine Finset.disjoint_left.2 fun x hx hx2 => ?_
              rcases Finset.mem_insert.1 hx2 with rfl | hh
              · exact (hxul x hx).2 rfl
              · rcases Finset.mem_union.1 hh with hh | hh
                · exact (Finset.disjoint_left.1 hld) hx hh
                · exact (Finset.disjoint_left.1 hd)
                    (Finset.mem_insert_of_mem (Finset.mem_union_left _ hx)) hh
          · intro x hx
            have hxi : x ≠ i := fun hh => hx (hh ▸ Finset.mem_insert_self _ _)
            have hxj : x ≠ j := fun hh => hx (hh ▸ Finset.mem_insert_of_mem
              (Finset.mem_union_left _ (Finset.mem_insert_self _ _)))
            simp only [List.getElem?_set_ne (Ne.symm hxj), List.getElem?_set_ne (Ne.symm hxi)]
    | right =>
      rw [show childT (Tree.node l k v r) Dir.right = r from rfl] at hc
      cases r with
      | leaf => exact absurd rfl hc
      | node rl rk rv rr =>
        cases hr with
        | @node j rk2 rv2 rli rri rl2 rr2 url urr hrn hrl hrr hri1 hri2 hrd =>
          have hij : i ≠ j := by
            intro hh
            exact hi2 (hh ▸ Finset.mem_insert_self _ _)
          have hrs := rotate_spec hn
            (show Node.dirChild ⟨k, v, li, some j⟩ .right = some j from rfl) hrn hij
          refine ⟨_, hrs, ?_, rfl, by simp, ?_⟩
          · have hgi : ((((s.nodes.set i (Node.withDir ⟨k, v, li, some j⟩ .right
                (Node.dirChild ⟨rk, rv, rli, rri⟩ Dir.right.flip))).set j
                (Node.withDir ⟨rk, rv, rli, rri⟩ Dir.right.flip (some j))).set i
                (Node.withDir ⟨rk, rv, rli, rri⟩ Dir.right.flip (some j))).set j
                (Node.withDir ⟨k, v, li, some j⟩ .right
                  (Node.dirChild ⟨rk, rv, rli, rri⟩ Dir.right.flip)))[i]?
                = some ⟨rk, rv, some j, rri⟩ := by
              rw [List.getElem?_set_ne (Ne.symm hij),
                List.getElem?_set_self (by simpa using getElem?_lt hn)]
              rfl
            have hgj : ((((s.nodes.set i (Node.withDir ⟨k, v, li, some j⟩ .right
                (Node.dirChild ⟨rk, rv, rli, rri⟩ Dir.right.flip))).set j
                (Node.withDir ⟨rk, rv, rli, rri⟩ Dir.right.flip (some j))).set i
                (Node.withDir ⟨rk, rv, rli, rri⟩ Dir.right.flip (some j))).set j
                (Node.withDir ⟨k, v, li, some j⟩ .right
                  (Node.dirChild ⟨rk, rv, rli, rri⟩ Dir.right.flip)))[j]?
                = some ⟨k, v, li, rli⟩ := by
              rw [List.getElem?_set_self (by simpa using getElem?_lt hrn)]
              rfl
            have hother : ∀ x, x ≠ i → x ≠ j →
                ((((s.nodes.set i (Node.withDir ⟨k, v, li, some j⟩ .right
                (Node.dirChild ⟨rk, rv, rli, rri⟩ Dir.right.flip))).set j
                (Node.withDir ⟨rk, rv, rli, rri⟩ Dir.right.flip (some j))).set i
                (Node.withDir ⟨rk, rv, rli, rri⟩ Dir.right.flip (some j))).set j
                (Node.withDir ⟨k, v, li, some j⟩ .right
                  (Node.dirChild ⟨rk, rv, rli, rri⟩ Dir.right.flip)))[x]?
                = s.nodes[x]? := by
              intro x hxi hxj
              rw [List.getElem?_set_ne (Ne.symm hxj), List.getElem?_set_ne (Ne.symm hxi),
                List.getElem?_set_ne (Ne.symm hxj), List.getElem?_set_ne (Ne.symm hxi)]
            have hxul : ∀ x ∈ ul, x ≠ i ∧ x ≠ j := fun x hx =>
              ⟨fun hh => hi1 (hh ▸ hx),
               fun hh => (Finset.disjoint_left.1 hd) (hh ▸ hx)
                 (Finset.mem_insert_self _ _)⟩
            have hxurl : ∀ x ∈ url, x ≠ i ∧ x ≠ j := fun x hx =>
              ⟨fun hh => hi2 (hh ▸ Finset.mem_insert_of_mem (Finset.mem_union_left _ hx)),
               fun hh => hri1 (hh ▸ hx)⟩
            have hxurr : ∀ x ∈ urr, x ≠ i ∧ x ≠ j := fun x hx =>
              ⟨fun hh => hi2 (hh ▸ Finset.mem_insert_of_mem (Finset.mem_union_right _ hx)),
               fun hh => hri2 (hh ▸ hx)⟩
            have hsets : insert i (insert j (ul ∪ url) ∪ urr)
                = insert i (ul ∪ insert j (url ∪ urr)) := by
              ext a
              simp only [Finset.mem_insert, Finset.mem_union]
              tauto
            have hrw : rotT (Tree.node l k v (.node rl rk rv rr)) .right
                = Tree.node (.node l k v rl) rk rv rr := by simp [rotT]
            rw [hrw, ← hsets]
            refine IsTree.node hgi (IsTree.node hgj ?_ ?_ ?_ hri1 ?_) ?_ ?_ ?_ ?_
            · exact IsTree.frame (fun x hx => hother x (hxul x hx).1 (hxul x hx).2) hl
            · exact IsTree.frame (fun x hx => hother x (hxurl x hx).1 (hxurl x hx).2) hrl
            · intro hmem
              exact ((hxul j hmem).2) rfl
            · exact Finset.disjoint_left.2 fun x hx hx2 =>
                (Finset.disjoint_left.1 hd) hx
                  (Finset.mem_insert_of_mem (Finset.mem_union_left _ hx2))
            · exact IsTree.frame (fun x hx => hother x (hxurr x hx).1 (hxurr x hx).2) hrr
            · intro hmem
              rcases Finset.mem_insert.1 hmem with hh | hh
              · exact hij hh
              · rcases Finset.mem_union.1 hh with hh | hh
                · exact hi1 hh
                · exact hi2 (Finset.mem_insert_of_mem (Finset.mem_union_left _ hh))
            · intro hmem
              exact (hxurr i hmem).1 rfl
            · refine Finset.disjoint_left.2 fun x hx hx2 => ?_
              rcases Finset.mem_insert.1 hx with rfl | hh
              · exact (hxurr x hx2).2 rfl
              · rcases Finset.mem_union.1 hh with hh | hh
                · exact (Finset.disjoint_left.1 hd) hh
                    (Finset.mem_insert_of_mem (Finset.mem_union_right _ hx2))
                · exact (Finset.disjoint_left.1 hrd) hh hx2
          · intro x hx
            have hxi : x ≠ i := fun hh => hx (hh ▸ Finset.mem_insert_self _ _)
            have hxj : x ≠ j := fun hh => hx (hh ▸ Finset.mem_insert_of_mem
              (Finset.mem_union_right _ (Finset.mem_insert_self _ _)))
            simp only [List.getElem?_set_ne (Ne.symm hxj), List.getElem?_set_ne (Ne.symm hxi)]

/-- `Splay::splay_step` refines `splayStepT` when the two-step path is
consistent with the tree shape. -/
theorem splayStep_sim {s : Splay} {i : Nat} {p : Path} {t : Tree} {u : Finset Nat}
    (hT : IsTree s (some i) t u)
    (happ : ∀ d1 d2, p = .two d1 d2 →
      childT t d1 ≠ .leaf ∧ childT (childT t d1) d2 ≠ .leaf) :
    ∃ s', s.splayStep i p = some (s', (splayStepT t p).2) ∧
      IsTree s' (some i) (splayStepT t p).1 u ∧
      s'.root = s.root ∧ s'.nodes.length = s.nodes.length ∧
      ∀ x ∉ u, s'.nodes[x]? = s.nodes[x]? := by
  cases p with
  | empty => exact ⟨s, rfl, hT, rfl, rfl, fun x _ => rfl⟩
  | one d => exact ⟨s, rfl, hT, rfl, rfl, fun x _ => rfl⟩
  | two d1 d2 =>
    obtain ⟨h1, h2⟩ := happ d1 d2 rfl
    cases hT with
    | @node i k v li ri l r ul ur hn hl hr hi1 hi2 hd =>
      cases d1 with
      | left =>
        rw [show childT (Tree.node l k v r) Dir.left = l from rfl] at h1 h2
        cases hci : li with
        | none =>
          rw [hci] at hl
          exact absurd (IsTree.none_leaf hl).1 h1
        | some ci =>
          rw [hci] at hl hn
          obtain ⟨s1, hrot1, hT1, hroot1, hlen1, hframe1⟩ := rotate_sim hl h2
          have hT1' : IsTree s1 (some i) (Tree.node (rotT l d2) k v r)
              (insert i (ul ∪ ur)) := by
            refine IsTree.node ?_ hT1 (IsTree.frame ?_ hr) hi1 hi2 hd
            · rw [hframe1 i hi1]; exact hn
            · intro x hx
              exact hframe1 x fun hmem => (Finset.disjoint_left.1 hd) hmem hx
          have hT2app : childT (Tree.node (rotT l d2) k v r) Dir.left ≠ .leaf := by
            rw [show childT (Tree.node (rotT l d2) k v r) Dir.left = rotT l d2 from rfl]
            exact rotT_ne_leaf h1 d2
          obtain ⟨s2, hrot2, hT2, hroot2, hlen2, hframe2⟩ := rotate_sim hT1' hT2app
          refine ⟨s2, ?_, ?_, hroot2.trans hroot1, hlen2.trans hlen1, ?_⟩
          · rw [Splay.splayStep, Splay.child, hn]
            simp only [Option.map_some', Option.some_bind, Option.bind_eq_bind,
              Node.dirChild, hrot1, hrot2]
            rfl
          · have : splayStepT (Tree.node l k v r) (Path.two Dir.left d2)
                = (rotT (Tree.node (rotT l d2) k v r) Dir.left, Path.empty) := by
              simp [splayStepT, childT, withChildT]
            rw [this]
            exact hT2
          · intro x hx
            rw [hframe2 x hx]
            exact hframe1 x fun hmem => hx
              (Finset.mem_insert_of_mem (Finset.mem_union_left _ hmem))
      | right =>
        rw [show childT (Tree.node l k v r) Dir.right = r from rfl] at h1 h2
        cases hci : ri with
        | none =>
          rw [hci] at hr
          exact absurd (IsTree.none_leaf hr).1 h1
        | some ci =>
          rw [hci] at hr hn
          obtain ⟨s1, hrot1, hT1, hroot1, hlen1, hframe1⟩ := rotate_sim hr h2
          have hT1' : IsTree s1 (some i) (Tree.node l k v (rotT r d2))
              (insert i (ul ∪ ur)) := by
            refine IsTree.node ?_ (IsTree.frame ?_ hl) hT1 hi1 hi2 hd
            · rw [hframe1 i hi2]; exact hn
            · intro x hx
              exact hframe1 x fun hmem =>
                (Finset.disjoint_left.1 hd) hx hmem
          have hT2app : childT (Tree.node l k v (rotT r d2)) Dir.right ≠ .leaf := by
            rw [show childT (Tree.node l k v (rotT r d2)) Dir.right = rotT r d2 from rfl]
            exact rotT_ne_leaf h1 d2
          obtain ⟨s2, hrot2, hT2, hroot2, hlen2, hframe2⟩ := rotate_sim hT1' hT2app
          refine ⟨s2, ?_, ?_, hroot2.trans hroot1, hlen2.trans hlen1, ?_⟩
          · rw [Splay.splayStep, Splay.child, hn]
            simp only [Option.map_some', Option.some_bind, Option.bind_eq_bind,
              Node.dirChild, hrot1, hrot2]
            rfl
          · have : splayStepT (Tree.node l k v r) (Path.two Dir.right d2)
                = (rotT (Tree.node l k v (rotT r d2)) Dir.right, Path.empty) := by
              simp [splayStepT, childT, withChildT]
            rw [this]
            exact hT2
          · intro x hx
            rw [hframe2 x hx]
            exact hframe1 x fun hmem => hx
              (Finset.mem_insert_of_mem (Finset.mem_union_right _ hmem))

theorem child_some {s : Splay} {idx : Nat} {n : Node} (h : s.nodes[idx]? = some n)
    (d : Dir) : s.child idx d = some (n.dirChild d) := by
  simp [Splay.child, h]

theorem created_node_lt {c : OrCreate} {l r : Tree} {k' v' : Int}
    (hs : SortedKeys (Tree.node l k' v' r).inorder) (hk : c.key < k') :
    created c (Tree.node l k' v' r).inorder = created c l.inorder := by
  cases c with
  | lookup _ => rfl
  | create kk vv =>
    simp only [OrCreate.key] at hk
    simp only [created, refGet_node_lt hs hk]

theorem created_node_gt {c : OrCreate} {l r : Tree} {k' v' : Int}
    (hs : SortedKeys (Tree.node l k' v' r).inorder) (hk : k' < c.key) :
    created c (Tree.node l k' v' r).inorder = created c r.inorder := by
  cases c with
  | lookup _ => rfl
  | create kk vv =>
    simp only [OrCreate.key] at hk
    simp only [created, refGet_node_gt hs hk]

theorem created_node_eq {c : OrCreate} {l r : Tree} {k' v' : Int}
    (hs : SortedKeys (Tree.node l k' v' r).inorder) (hk : c.key = k') :
    created c (Tree.node l k' v' r).inorder = false := by
  cases c with
  | lookup _ => rfl
  | create kk vv =>
    simp only [OrCreate.key] at hk
    simp only [created, hk, refGet_node_eq hs, Option.isNone_some]

set_option maxHeartbeats 2000000 in
/-- `Splay::visit_inner` refines the abstract `visitInnerT`: starting
from a subtree at slot `idx`, the call succeeds, produces the same path
and value as the abstract visit, leaves the subtree root in slot `idx`,
appends at most one node (exactly when the request creates), and leaves
slots outside the subtree untouched. -/
theorem visitInner_sim : ∀ (fuel : Nat) (s : Splay) (idx : Nat) (c : OrCreate)
    (t : Tree) (u : Finset Nat),
    IsTree s (some idx) t u → SortedKeys t.inorder → t.size < fuel →
    ∃ s', s.visitInner fuel idx c .empty
        = some (s', (visitInnerT c.key c.val t).2.1, (visitInnerT c.key c.val t).2.2) ∧
      IsTree s' (some idx) (visitInnerT c.key c.val t).1
        (if created c t.inorder then insert s.nodes.length u else u) ∧
      s'.nodes.length
        = (if created c t.inorder then s.nodes.length + 1 else s.nodes.length) ∧
      s'.root = s.root ∧
      ∀ x, x ∉ u → x ≠ s.nodes.length → s'.nodes[x]? = s.nodes[x]? := by
  intro fuel
  induction fuel with
  | zero =>
    intro s idx c t u hT hs hsize
    omega
  | succ fuel ih =>
    intro s idx c t u hT hs hsize
    cases hT with
    | @node idx k0 v0 li ri l r ul ur hn hl hr hi1 hi2 hd =>
      rcases lt_trichotomy c.key k0 with hcmp | hcmp | hcmp
      · -- descend left
        have hc : compare c.key k0 = .lt := compare_lt_iff_lt.2 hcmp
        have hne : c.key ≠ k0 := ne_of_lt hcmp
        obtain ⟨hsl, hsr, hbl, hbr⟩ := sorted_node hs
        have hcr := created_node_lt hs hcmp
        cases hci : li with
        | none =>
          rw [hci] at hl hn
          obtain ⟨rfl, rfl⟩ := IsTree.none_leaf hl
          cases c with
          | lookup kk =>
            simp only [OrCreate.key] at hcmp hne hc
            have htree : visitInnerT kk none (Tree.node .leaf k0 v0 r)
                = (Tree.node .leaf k0 v0 r, Path.empty, none) := by
              simp [visitInnerT, hne, hcmp, descendT, visitLeafT, afterStepT, splayStepT]
            refine ⟨s, ?_, ?_, ?_, rfl, fun x _ _ => rfl⟩
            · rw [Splay.visitInner.eq_def, hn]
              simp only [Option.some_bind, Option.bind_eq_bind, OrCreate.key,
                OrCreate.val, hc]
              rw [child_some hn .left]
              simp only [Option.some_bind, Option.bind_eq_bind, Node.dirChild,
                OrCreate.key, OrCreate.val, htree, Splay.splayStep]
              rfl
            · simp only [OrCreate.key, OrCreate.val]
              rw [htree]
              simp only [created, Bool.false_eq_true, if_false]
              exact IsTree.node hn hl hr hi1 hi2 hd
            · simp [created]
          | create kk vv =>
            simp only [OrCreate.key] at hcmp hne hc
            have htree : visitInnerT kk (some vv) (Tree.node .leaf k0 v0 r)
                = (Tree.node (.node .leaf kk vv .leaf) k0 v0 r, Path.one .left, none) := by
              simp [visitInnerT, hne, hcmp, descendT, visitLeafT, withChildT,
                afterStepT, splayStepT]
            have hgetn : refGet kk (Tree.node .leaf k0 v0 r).inorder = none := by
              rw [refGet_node_lt hs hcmp]; rfl
            have hcr2 : created (OrCreate.create kk vv)
                (Tree.node .leaf k0 v0 r).inorder = true := by
              simp [created, OrCreate.key, hgetn]
            have hidxlen : idx < s.nodes.length := getElem?_lt hn
            have hs1idx : (s.nodes ++ [(⟨kk, vv, none, none⟩ : Node)])[idx]?
                = some ⟨k0, v0, none, ri⟩ := by
              rw [List.getElem?_append_left hidxlen]
              exact hn
            -- the updated arena
            refine ⟨Splay.mk s.root ((s.nodes ++ [Node.mk kk vv none none]).set idx
              (Node.mk k0 v0 (some s.nodes.length) ri)), ?_, ?_, ?_, rfl, ?_⟩
            · rw [Splay.visitInner.eq_def, hn]
              simp only [Option.some_bind, Option.bind_eq_bind, OrCreate.key,
                OrCreate.val, hc]
              rw [child_some hn .left]
              simp only [Option.some_bind, Option.bind_eq_bind, Node.dirChild,
                Splay.newNode, Splay.setChild, hs1idx, Option.map_some', htree,
                Splay.splayStep]
              rfl
            · simp only [OrCreate.key, OrCreate.val]
              rw [htree, hcr2]
              simp only [if_true]
              have hLidx : idx ≠ s.nodes.length := by omega
              have hgidx : ((s.nodes ++ [(⟨kk, vv, none, none⟩ : Node)]).set idx
                  ⟨k0, v0, some s.nodes.length, ri⟩)[idx]?
                  = some ⟨k0, v0, some s.nodes.length, ri⟩ := by
                rw [List.getElem?_set_self (by simp; omega)]
              have hgL : ((s.nodes ++ [(⟨kk, vv, none, none⟩ : Node)]).set idx
                  ⟨k0, v0, some s.nodes.length, ri⟩)[s.nodes.length]?
                  = some ⟨kk, vv, none, none⟩ := by
                rw [List.getElem?_set_ne hLidx, List.getElem?_concat_length]
              have hgur : ∀ x ∈ ur, ((s.nodes ++ [(⟨kk, vv, none, none⟩ : Node)]).set idx
                  ⟨k0, v0, some s.nodes.length, ri⟩)[x]? = s.nodes[x]? := by
                intro x hx
                have hxidx : x ≠ idx := fun hh => hi2 (hh ▸ hx)
                have hxlen : x < s.nodes.length := IsTree.lt_length hr x hx
                rw [List.getElem?_set_ne (Ne.symm hxidx),
                  List.getElem?_append_left hxlen]
              have hLur : s.nodes.length ∉ ur := fun hmem =>
                absurd (IsTree.lt_length hr _ hmem) (by omega)
              have hsets : insert idx ((insert s.nodes.length (∅ ∪ ∅) : Finset Nat) ∪ ur)
                  = insert s.nodes.length (insert idx (∅ ∪ ur)) := by
                ext a
                simp only [Finset.mem_insert, Finset.mem_union, Finset.not_mem_empty]
                tauto
              rw [← hsets]
              refine IsTree.node hgidx
                (IsTree.node hgL IsTree.leaf IsTree.leaf (by simp) (by simp)
                  (by simp))
                (IsTree.frame hgur hr) ?_ hi2 ?_
              · intro hmem
                rcases Finset.mem_insert.1 hmem with hh | hh
                · exact hLidx hh
                · simp at hh
              · refine Finset.disjoint_left.2 fun x hx hx2 => ?_
                rcases Finset.mem_insert.1 hx with rfl | hh
                · exact hLur hx2
                · simp at hh
            · simp only [OrCreate.key, OrCreate.val] at hcr2 ⊢
              rw [hcr2]
              simp
            · intro x hxu hxL
              have hxidx : x ≠ idx := fun hh => hxu (hh ▸ Finset.mem_insert_self _ _)
              simp only [List.getElem?_set_ne (Ne.symm hxidx)]
              rcases Nat.lt_trichotomy x s.nodes.length with hlt | heq | hgt
              · rw [List.getElem?_append_left hlt]
              · exact absurd heq hxL
              · rw [List.getElem?_eq_none (by simp; omega),
                  List.getElem?_eq_none (by omega)]
        | some ci =>
          rw [hci] at hl hn
          cases l with
          | leaf => exact absurd rfl (IsTree.ne_leaf hl)
          | node la lk lv lb =>
            have hlne : Tree.node la lk lv lb ≠ Tree.leaf := by simp
            obtain ⟨ihne, ihat, ihval, ihino⟩ :=
              @visitInnerT_spec c.key c.val _ hlne hsl
            obtain ⟨s1, heq1, hT1, hlen1, hroot1, hframe1⟩ :=
              ih s ci c (Tree.node la lk lv lb) ul hl hsl (by
                simp only [Tree.size] at hsize ⊢
                omega)
            have hidxlen : idx < s.nodes.length := getElem?_lt hn
            have hidxNe : idx ≠ s.nodes.length := by omega
            -- subtree root slot and right subtree are untouched by the recursion
            have hidx1 : s1.nodes[idx]? = some ⟨k0, v0, some ci, ri⟩ := by
              rw [hframe1 idx hi1 hidxNe]; exact hn
            have hur1 : ∀ x ∈ ur, s1.nodes[x]? = s.nodes[x]? := by
              intro x hx
              exact hframe1 x (fun hmem => (Finset.disjoint_left.1 hd) hmem hx)
                (fun hh => absurd (IsTree.lt_length hr x hx) (by omega))
            have hT1' : IsTree s1 (some idx)
                (Tree.node (visitInnerT c.key c.val (Tree.node la lk lv lb)).1 k0 v0 r)
                (insert idx ((if created c (Tree.node la lk lv lb).inorder then
                  insert s.nodes.length ul else ul) ∪ ur)) := by
              refine IsTree.node hidx1 hT1 (IsTree.frame hur1 hr) ?_ hi2 ?_
              · by_cases hcc : created c (Tree.node la lk lv lb).inorder = true
                · rw [if_pos hcc]
                  intro hmem
                  rcases Finset.mem_insert.1 hmem with hh | hh
                  · exact hidxNe hh
                  · exact hi1 hh
                · rw [if_neg hcc]
                  exact hi1
              · have hLur : s.nodes.length ∉ ur := fun hmem =>
                  absurd (IsTree.lt_length hr _ hmem) (by omega)
                by_cases hcc : created c (Tree.node la lk lv lb).inorder = true
                · rw [if_pos hcc]
                  refine Finset.disjoint_left.2 fun x hx hx2 => ?_
                  rcases Finset.mem_insert.1 hx with rfl | hh
                  · exact hLur hx2
                  · exact (Finset.disjoint_left.1 hd) hh hx2
                · rw [if_neg hcc]
                  exact hd
            have happ : ∀ d1 d2,
                (visitInnerT c.key c.val (Tree.node la lk lv lb)).2.1.extend .left
                  = .two d1 d2 →
                childT (Tree.node (visitInnerT c.key c.val (Tree.node la lk lv lb)).1
                  k0 v0 r) d1 ≠ .leaf ∧
                childT (childT (Tree.node
                  (visitInnerT c.key c.val (Tree.node la lk lv lb)).1 k0 v0 r) d1) d2
                  ≠ .leaf := by
              intro d1 d2 hext
              cases hpl : (visitInnerT c.key c.val (Tree.node la lk lv lb)).2.1 with
              | empty => rw [hpl] at hext; exact absurd hext (by simp [Path.extend])
              | two e1 e2 =>
                rw [hpl] at ihat
                simp [atPath] at ihat
              | one e2 =>
                rw [hpl] at hext
                simp only [Path.extend, Path.two.injEq] at hext
                obtain ⟨rfl, rfl⟩ := hext
                rw [hpl] at ihat
                simp only [atPath] at ihat
                constructor
                · rw [show childT (Tree.node
                    (visitInnerT c.key c.val (Tree.node la lk lv lb)).1 k0 v0 r)
                    Dir.left = (visitInnerT c.key c.val (Tree.node la lk lv lb)).1
                    from rfl]
                  exact ihne
                · rw [show childT (Tree.node
                    (visitInnerT c.key c.val (Tree.node la lk lv lb)).1 k0 v0 r)
                    Dir.left = (visitInnerT c.key c.val (Tree.node la lk lv lb)).1
                    from rfl]
                  intro hh
                  rw [hh] at ihat
                  simp [rootPair] at ihat
            obtain ⟨s2, heq2, hT2, hroot2, hlen2, hframe2⟩ := splayStep_sim hT1' happ
            have htree : visitInnerT c.key c.val (Tree.node (.node la lk lv lb) k0 v0 r)
                = ((splayStepT
                    (Tree.node (visitInnerT c.key c.val (Tree.node la lk lv lb)).1
                      k0 v0 r)
                    ((visitInnerT c.key c.val (Tree.node la lk lv lb)).2.1.extend
                      .left)).1,
                   (splayStepT
                    (Tree.node (visitInnerT c.key c.val (Tree.node la lk lv lb)).1
                      k0 v0 r)
                    ((visitInnerT c.key c.val (Tree.node la lk lv lb)).2.1.extend
                      .left)).2,
                   (visitInnerT c.key c.val (Tree.node la lk lv lb)).2.2) := by
              simp [visitInnerT, hne, hcmp, descendT, withChildT, afterStepT]
            refine ⟨s2, ?_, ?_, ?_, hroot2.trans hroot1, ?_⟩
            · rw [Splay.visitInner.eq_def, hn]
              simp only [Option.some_bind, Option.bind_eq_bind, hc]
              rw [child_some hn .left]
              simp only [Option.some_bind, Option.bind_eq_bind, Node.dirChild, heq1,
                heq2, htree]
              simp only [Option.pure_def, Option.some_bind, heq2]
            · rw [htree, hcr]
              have hsets : insert idx ((if created c (Tree.node la lk lv lb).inorder
                  then insert s.nodes.length ul else ul) ∪ ur)
                  = (if created c (Tree.node la lk lv lb).inorder then
                    insert s.nodes.length (insert idx (ul ∪ ur))
                    else insert idx (ul ∪ ur)) := by
                by_cases hcc : created c (Tree.node la lk lv lb).inorder = true
                · simp only [if_pos hcc]
                  ext a
                  simp only [Finset.mem_insert, Finset.mem_union]
                  tauto
                · simp only [if_neg hcc]
              rw [← hsets]
              exact hT2
            · rw [hcr, hlen2]
              exact hlen1
            · intro x hxu hxL
              have hxu1 : x ∉ insert idx ((if created c
                  (Tree.node la lk lv lb).inorder then
                  insert s.nodes.length ul else ul) ∪ ur) := by
                intro hmem
                rcases Finset.mem_insert.1 hmem with rfl | hh
                · exact hxu (Finset.mem_insert_self _ _)
                · rcases Finset.mem_union.1 hh with hh | hh
                  · by_cases hcc : created c (Tree.node la lk lv lb).inorder = true
                    · rw [if_pos hcc] at hh
                      rcases Finset.mem_insert.1 hh with rfl | hh
                      · exact hxL rfl
                      · exact hxu (Finset.mem_insert_of_mem (Finset.mem_union_left _ hh))
                    · rw [if_neg hcc] at hh
                      exact hxu (Finset.mem_insert_of_mem (Finset.mem_union_left _ hh))
                  · exact hxu (Finset.mem_insert_of_mem (Finset.mem_union_right _ hh))
              rw [hframe2 x hxu1]
              exact hframe1 x
                (fun hmem => hxu (Finset.mem_insert_of_mem (Finset.mem_union_left _ hmem)))
                hxL
      · -- the key sits in this node
        have hc : compare c.key k0 = .eq := compare_eq_iff_eq.2 hcmp
        have htree : visitInnerT c.key c.val (Tree.node l k0 v0 r)
            = (Tree.node l k0 v0 r, Path.empty, c.val) := by
          simp [visitInnerT, if_pos hcmp, afterStepT, splayStepT]
        have hcr := created_node_eq hs hcmp
        refine ⟨s, ?_, ?_, ?_, rfl, fun x _ _ => rfl⟩
        · rw [Splay.visitInner.eq_def, hn]
          simp only [Option.some_bind, Option.bind_eq_bind, hc, htree, Splay.splayStep]
          rfl
        · rw [htree, hcr]
          simp only [Bool.false_eq_true, if_false]
          exact IsTree.node hn hl hr hi1 hi2 hd
        · rw [hcr]
          simp
      · -- descend right
        have hc : compare c.key k0 = .gt := compare_gt_iff_gt.2 hcmp
        have hne : c.key ≠ k0 := ne_of_gt hcmp
        have hnlt : ¬c.key < k0 := not_lt.2 (le_of_lt hcmp)
        obtain ⟨hsl, hsr, hbl, hbr⟩ := sorted_node hs
        have hcr := created_node_gt hs hcmp
        cases hci : ri with
        | none =>
          rw [hci] at hr hn
          obtain ⟨rfl, rfl⟩ := IsTree.none_leaf hr
          cases c with
          | lookup kk =>
            simp only [OrCreate.key] at hcmp hne hnlt hc
            have htree : visitInnerT kk none (Tree.node l k0 v0 .leaf)
                = (Tree.node l k0 v0 .leaf, Path.empty, none) := by
              simp [visitInnerT, hne, hnlt, descendT, visitLeafT, afterStepT, splayStepT]
            refine ⟨s, ?_, ?_, ?_, rfl, fun x _ _ => rfl⟩
            · rw [Splay.visitInner.eq_def, hn]
              simp only [Option.some_bind, Option.bind_eq_bind, OrCreate.key,
                OrCreate.val, hc]
              rw [child_some hn .right]
              simp only [Option.some_bind, Option.bind_eq_bind, Node.dirChild,
                OrCreate.key, OrCreate.val, htree, Splay.splayStep]
              rfl
            · simp only [OrCreate.key, OrCreate.val]
              rw [htree]
              simp only [created, Bool.false_eq_true, if_false]
              exact IsTree.node hn hl hr hi1 hi2 hd
            · simp [created]
          | create kk vv =>
            simp only [OrCreate.key] at hcmp hne hnlt hc
            have htree : visitInnerT kk (some vv) (Tree.node l k0 v0 .leaf)
                = (Tree.node l k0 v0 (.node .leaf kk vv .leaf), Path.one .right, none) := by
              simp [visitInnerT, hne, hnlt, descendT, visitLeafT, withChildT,
                afterStepT, splayStepT]
            have hgetn : refGet kk (Tree.node l k0 v0 .leaf).inorder = none := by
              rw [refGet_node_gt hs hcmp]; rfl
            have hcr2 : created (OrCreate.create kk vv)
                (Tree.node l k0 v0 .leaf).inorder = true := by
              simp [created, OrCreate.key, hgetn]
            have hidxlen : idx < s.nodes.length := getElem?_lt hn
            have hs1idx : (s.nodes ++ [(⟨kk, vv, none, none⟩ : Node)])[idx]?
                = some ⟨k0, v0, li, none⟩ := by
              rw [List.getElem?_append_left hidxlen]
              exact hn
            refine ⟨Splay.mk s.root ((s.nodes ++ [Node.mk kk vv none none]).set idx
              (Node.mk k0 v0 li (some s.nodes.length))), ?_, ?_, ?_, rfl, ?_⟩
            · rw [Splay.visitInner.eq_def, hn]
              simp only [Option.some_bind, Option.bind_eq_bind, OrCreate.key,
                OrCreate.val, hc]
              rw [child_some hn .right]
              simp only [Option.some_bind, Option.bind_eq_bind, Node.dirChild,
                Splay.newNode, Splay.setChild, hs1idx, Option.map_some', htree,
                Splay.splayStep]
              rfl
            · simp only [OrCreate.key, OrCreate.val]
              rw [htree, hcr2]
              simp only [if_true]
              have hLidx : idx ≠ s.nodes.length := by omega
              have hgidx : ((s.nodes ++ [(⟨kk, vv, none, none⟩ : Node)]).set idx
                  ⟨k0, v0, li, some s.nodes.length⟩)[idx]?
                  = some ⟨k0, v0, li, some s.nodes.length⟩ := by
                rw [List.getElem?_set_self (by simp; omega)]
              have hgL : ((s.nodes ++ [(⟨kk, vv, none, none⟩ : Node)]).set idx
                  ⟨k0, v0, li, some s.nodes.length⟩)[s.nodes.length]?
                  = some ⟨kk, vv, none, none⟩ := by
                rw [List.getElem?_set_ne hLidx, List.getElem?_concat_length]
              have hgul : ∀ x ∈ ul, ((s.nodes ++ [(⟨kk, vv, none, none⟩ : Node)]).set idx
                  ⟨k0, v0, li, some s.nodes.length⟩)[x]? = s.nodes[x]? := by
                intro x hx
                have hxidx : x ≠ idx := fun hh => hi1 (hh ▸ hx)
                have hxlen : x < s.nodes.length := IsTree.lt_length hl x hx
                rw [List.getElem?_set_ne (Ne.symm hxidx),
                  List.getElem?_append_left hxlen]
              have hLul : s.nodes.length ∉ ul := fun hmem =>
                absurd (IsTree.lt_length hl _ hmem) (by omega)
              have hsets : insert idx (ul ∪ (insert s.nodes.length (∅ ∪ ∅) : Finset Nat))
                  = insert s.nodes.length (insert idx (ul ∪ ∅)) := by
                ext a
                simp only [Finset.mem_insert, Finset.mem_union, Finset.not_mem_empty]
                tauto
              rw [← hsets]
              refine IsTree.node hgidx (IsTree.frame hgul hl)
                (IsTree.node hgL IsTree.leaf IsTree.leaf (by simp) (by simp)
                  (by simp)) hi1 ?_ ?_
              · intro hmem
                rcases Finset.mem_insert.1 hmem with hh | hh
                · exact hLidx hh
                · simp at hh
              · refine Finset.disjoint_left.2 fun x hx hx2 => ?_
                rcases Finset.mem_insert.1 hx2 with rfl | hh
                · exact hLul hx
                · simp at hh
            · simp only [OrCreate.key, OrCreate.val] at hcr2 ⊢
              rw [hcr2]
              simp
            · intro x hxu hxL
              have hxidx : x ≠ idx := fun hh => hxu (hh ▸ Finset.mem_insert_self _ _)
              simp only [List.getElem?_set_ne (Ne.symm hxidx)]
              rcases Nat.lt_trichotomy x s.nodes.length with hlt | heq | hgt
              · rw [List.getElem?_append_left hlt]
              · exact absurd heq hxL
              · rw [List.getElem?_eq_none (by simp; omega),
                  List.getElem?_eq_none (by omega)]
        | some ci =>
          rw [hci] at hr hn
          cases r with
          | leaf => exact absurd rfl (IsTree.ne_leaf hr)
          | node ra rk rv rb =>
            have hrne : Tree.node ra rk rv rb ≠ Tree.leaf := by simp
            obtain ⟨ihne, ihat, ihval, ihino⟩ :=
              @visitInnerT_spec c.key c.val _ hrne hsr
            obtain ⟨s1, heq1, hT1, hlen1, hroot1, hframe1⟩ :=
              ih s ci c (Tree.node ra rk rv rb) ur hr hsr (by
                simp only [Tree.size] at hsize ⊢
                omega)
            have hidxlen : idx < s.nodes.length := getElem?_lt hn
            have hidxNe : idx ≠ s.nodes.length := by omega
            have hidx1 : s1.nodes[idx]? = some ⟨k0, v0, li, some ci⟩ := by
              rw [hframe1 idx hi2 hidxNe]; exact hn
            have hul1 : ∀ x ∈ ul, s1.nodes[x]? = s.nodes[x]? := by
              intro x hx
              exact hframe1 x (fun hmem => (Finset.disjoint_left.1 hd) hx hmem)
                (fun hh => absurd (IsTree.lt_length hl x hx) (by omega))
            have hT1' : IsTree s1 (some idx)
                (Tree.node l k0 v0 (visitInnerT c.key c.val (Tree.node ra rk rv rb)).1)
                (insert idx (ul ∪ (if created c (Tree.node ra rk rv rb).inorder then
                  insert s.nodes.length ur else ur))) := by
              refine IsTree.node hidx1 (IsTree.frame hul1 hl) hT1 hi1 ?_ ?_
              · by_cases hcc : created c (Tree.node ra rk rv rb).inorder = true
                · rw [if_pos hcc]
                  intro hmem
                  rcases Finset.mem_insert.1 hmem with hh | hh
                  · exact hidxNe hh
                  · exact hi2 hh
                · rw [if_neg hcc]
                  exact hi2
              · have hLul : s.nodes.length ∉ ul := fun hmem =>
                  absurd (IsTree.lt_length hl _ hmem) (by omega)
                by_cases hcc : created c (Tree.node ra rk rv rb).inorder = true
                · rw [if_pos hcc]
                  refine Finset.disjoint_left.2 fun x hx hx2 => ?_
                  rcases Finset.mem_insert.1 hx2 with rfl | hh
                  · exact hLul hx
                  · exact (Finset.disjoint_left.1 hd) hx hh
                · rw [if_neg hcc]
                  exact hd
            have happ : ∀ d1 d2,
                (visitInnerT c.key c.val (Tree.node ra rk rv rb)).2.1.extend .right
                  = .two d1 d2 →
                childT (Tree.node l k0 v0
                  (visitInnerT c.key c.val (Tree.node ra rk rv rb)).1) d1 ≠ .leaf ∧
                childT (childT (Tree.node l k0 v0
                  (visitInnerT c.key c.val (Tree.node ra rk rv rb)).1) d1) d2
                  ≠ .leaf := by
              intro d1 d2 hext
              cases hpl : (visitInnerT c.key c.val (Tree.node ra rk rv rb)).2.1 with
              | empty => rw [hpl] at hext; exact absurd hext (by simp [Path.extend])
              | two e1 e2 =>
                rw [hpl] at ihat
                simp [atPath] at ihat
              | one e2 =>
                rw [hpl] at hext
                simp only [Path.extend, Path.two.injEq] at hext
                obtain ⟨rfl, rfl⟩ := hext
                rw [hpl] at ihat
                simp only [atPath] at ihat
                constructor
                · rw [show childT (Tree.node l k0 v0
                    (visitInnerT c.key c.val (Tree.node ra rk rv rb)).1)
                    Dir.right = (visitInnerT c.key c.val (Tree.node ra rk rv rb)).1
                    from rfl]
                  exact ihne
                · rw [show childT (Tree.node l k0 v0
                    (visitInnerT c.key c.val (Tree.node ra rk rv rb)).1)
                    Dir.right = (visitInnerT c.key c.val (Tree.node ra rk rv rb)).1
                    from rfl]
                  intro hh
                  rw [hh] at ihat
                  simp [rootPair] at ihat
            obtain ⟨s2, heq2, hT2, hroot2, hlen2, hframe2⟩ := splayStep_sim hT1' happ
            have htree : visitInnerT c.key c.val (Tree.node l k0 v0 (.node ra rk rv rb))
                = ((splayStepT
                    (Tree.node l k0 v0
                      (visitInnerT c.key c.val (Tree.node ra rk rv rb)).1)
                    ((visitInnerT c.key c.val (Tree.node ra rk rv rb)).2.1.extend
                      .right)).1,
                   (splayStepT
                    (Tree.node l k0 v0
                      (visitInnerT c.key c.val (Tree.node ra rk rv rb)).1)
                    ((visitInnerT c.key c.val (Tree.node ra rk rv rb)).2.1.extend
                      .right)).2,
                   (visitInnerT c.key c.val (Tree.node ra rk rv rb)).2.2) := by
              simp [visitInnerT, hne, hnlt, descendT, withChildT, afterStepT]
            refine ⟨s2, ?_, ?_, ?_, hroot2.trans hroot1, ?_⟩
            · rw [Splay.visitInner.eq_def, hn]
              simp only [Option.some_bind, Option.bind_eq_bind, hc]
              rw [child_some hn .right]
              simp only [Option.some_bind, Option.bind_eq_bind, Node.dirChild, heq1,
                heq2, htree]
              simp only [Option.pure_def, Option.some_bind, heq2]
            · rw [htree, hcr]
              have hsets : insert idx (ul ∪ (if created c
                  (Tree.node ra rk rv rb).inorder then
                  insert s.nodes.length ur else ur))
                  = (if created c (Tree.node ra rk rv rb).inorder then
                    insert s.nodes.length (insert idx (ul ∪ ur))
                    else insert idx (ul ∪ ur)) := by
                by_cases hcc : created c (Tree.node ra rk rv rb).inorder = true
                · simp only [if_pos hcc]
                  ext a
                  simp only [Finset.mem_insert, Finset.mem_union]
                  tauto
                · simp only [if_neg hcc]
              rw [← hsets]
              exact hT2
            · rw [hcr, hlen2]
              exact hlen1
            · intro x hxu hxL
              have hxu1 : x ∉ insert idx (ul ∪ (if created c
                  (Tree.node ra rk rv rb).inorder then
                  insert s.nodes.length ur else ur)) := by
                intro hmem
                rcases Finset.mem_insert.1 hmem with rfl | hh
                · exact hxu (Finset.mem_insert_self _ _)
                · rcases Finset.mem_union.1 hh with hh | hh
                  · exact hxu (Finset.mem_insert_of_mem (Finset.mem_union_left _ hh))
                  · by_cases hcc : created c (Tree.node ra rk rv rb).inorder = true
                    · rw [if_pos hcc] at hh
                      rcases Finset.mem_insert.1 hh with rfl | hh
                      · exact hxL rfl
                      · exact hxu (Finset.mem_insert_of_mem (Finset.mem_union_right _ hh))
                    · rw [if_neg hcc] at hh
                      exact hxu (Finset.mem_insert_of_mem (Finset.mem_union_right _ hh))
              rw [hframe2 x hxu1]
              exact hframe1 x
                (fun hmem => hxu (Finset.mem_insert_of_mem (Finset.mem_union_right _ hmem)))
                hxL

/-! ## Search-target characterisation -/

theorem searchT_found {k w : Int} {cv : Option Int} {t : Tree}
    (hs : SortedKeys t.inorder) (hget : refGet k t.inorder = some w) :
    searchT k cv t = (k, w) := by
  induction t with
  | leaf => simp [Tree.inorder, refGet] at hget
  | node l k' v' r ihl ihr =>
    obtain ⟨hsl, hsr, hbl, hbr⟩ := sorted_node hs
    rcases lt_trichotomy k k' with hcmp | hcmp | hcmp
    · rw [refGet_node_lt hs hcmp] at hget
      cases l with
      | leaf => simp [Tree.inorder, refGet] at hget
      | node la lk lv lb =>
        rw [searchT, if_neg (ne_of_lt hcmp), if_pos hcmp]
        exact ihl hsl hget
    · rw [hcmp] at hget ⊢
      rw [refGet_node_eq hs] at hget
      rw [searchT, if_pos rfl]
      exact congrArg (fun w => (k', w)) (Option.some.inj hget)
    · rw [refGet_node_gt hs hcmp] at hget
      cases r with
      | leaf => simp [Tree.inorder, refGet] at hget
      | node ra rk rv rb =>
        rw [searchT, if_neg (ne_of_gt hcmp), if_neg (not_lt.2 (le_of_lt hcmp))]
        exact ihr hsr hget

theorem searchT_miss_lookup {k : Int} {t : Tree}
    (hs : SortedKeys t.inorder) (hget : refGet k t.inorder = none) (ht : t ≠ .leaf) :
    searchT k none t ∈ t.inorder ∧ (searchT k none t).1 ≠ k := by
  induction t with
  | leaf => exact absurd rfl ht
  | node l k' v' r ihl ihr =>
    obtain ⟨hsl, hsr, hbl, hbr⟩ := sorted_node hs
    have hknotk' : k ≠ k' := by
      intro hh
      rw [hh, refGet_node_eq hs] at hget
      exact Option.noConfusion hget
    rcases lt_trichotomy k k' with hcmp | hcmp | hcmp
    · rw [refGet_node_lt hs hcmp] at hget
      cases l with
      | leaf =>
        rw [searchT, if_neg hknotk', if_pos hcmp]
        refine ⟨?_, Ne.symm hknotk'⟩
        simp [searchDeadT, searchLeafT, Tree.inorder]
      | node la lk lv lb =>
        rw [searchT, if_neg hknotk', if_pos hcmp]
        obtain ⟨hmem, hne⟩ := ihl hsl hget (by simp)
        refine ⟨?_, hne⟩
        rw [show searchDeadT k none k' v' (Tree.node la lk lv lb)
          (searchT k none (Tree.node la lk lv lb))
          = searchT k none (Tree.node la lk lv lb) from rfl]
        rw [Tree.inorder]
        exact List.mem_append_left _ hmem
    · exact absurd hcmp hknotk'
    · rw [refGet_node_gt hs hcmp] at hget
      cases r with
      | leaf =>
        rw [searchT, if_neg hknotk', if_neg (not_lt.2 (le_of_lt hcmp))]
        refine ⟨?_, Ne.symm hknotk'⟩
        simp [searchDeadT, searchLeafT, Tree.inorder]
      | node ra rk rv rb =>
        rw [searchT, if_neg hknotk', if_neg (not_lt.2 (le_of_lt hcmp))]
        obtain ⟨hmem, hne⟩ := ihr hsr hget (by simp)
        refine ⟨?_, hne⟩
        rw [show searchDeadT k none k' v' (Tree.node ra rk rv rb)
          (searchT k none (Tree.node ra rk rv rb))
          = searchT k none (Tree.node ra rk rv rb) from rfl]
        rw [Tree.inorder]
        exact List.mem_append_right _ (List.mem_cons_of_mem _ hmem)

theorem searchT_miss_create {k v : Int} {t : Tree}
    (hs : SortedKeys t.inorder) (hget : refGet k t.inorder = none) (ht : t ≠ .leaf) :
    searchT k (some v) t = (k, v) := by
  induction t with
  | leaf => exact absurd rfl ht
  | node l k' v' r ihl ihr =>
    obtain ⟨hsl, hsr, hbl, hbr⟩ := sorted_node hs
    have hknotk' : k ≠ k' := by
      intro hh
      rw [hh, refGet_node_eq hs] at hget
      exact Option.noConfusion hget
    rcases lt_trichotomy k k' with hcmp | hcmp | hcmp
    · rw [refGet_node_lt hs hcmp] at hget
      cases l with
      | leaf => rw [searchT, if_neg hknotk', if_pos hcmp]; rfl
      | node la lk lv lb =>
        rw [searchT, if_neg hknotk', if_pos hcmp]
        exact ihl hsl hget (by simp)
    · exact absurd hcmp hknotk'
    · rw [refGet_node_gt hs hcmp] at hget
      cases r with
      | leaf => rw [searchT, if_neg hknotk', if_neg (not_lt.2 (le_of_lt hcmp))]; rfl
      | node ra rk rv rb =>
        rw [searchT, if_neg hknotk', if_neg (not_lt.2 (le_of_lt hcmp))]
        exact ihr hsr hget (by simp)

/-! ## Simulation of the public operations -/

theorem visit_sim {s : Splay} {rt : Nat} {t : Tree} (c : OrCreate)
    (hroot : s.root = some rt)
    (hT : IsTree s (some rt) t (Finset.range s.nodes.length))
    (hs : SortedKeys t.inorder) :
    ∃ s' t', s.visit c = some (s', visitVal c.key c.val t.inorder) ∧
      s'.root = some rt ∧
      IsTree s' (some rt) t' (Finset.range s'.nodes.length) ∧
      t'.inorder = visitEntries c.key c.val t.inorder ∧
      rootPair t' = some (searchT c.key c.val t) ∧
      s'.nodes.length = (if created c t.inorder then s.nodes.length + 1
        else s.nodes.length) := by
  have htne := IsTree.ne_leaf hT
  obtain ⟨ihne, ihat, ihval, ihino⟩ := @visitInnerT_spec c.key c.val _ htne hs
  have hsize : t.size < s.nodes.length + 1 := by
    rw [IsTree.size_eq hT, Finset.card_range]
    omega
  obtain ⟨s1, heq1, hT1, hlen1, hroot1, hframe1⟩ :=
    visitInner_sim (s.nodes.length + 1) s rt c t (Finset.range s.nodes.length) hT hs hsize
  have hu1 : (if created c t.inorder then insert s.nodes.length
      (Finset.range s.nodes.length) else Finset.range s.nodes.length)
      = Finset.range s1.nodes.length := by
    rw [hlen1]
    by_cases hcc : created c t.inorder = true
    · rw [if_pos hcc, if_pos hcc, Finset.range_succ]
    · rw [if_neg hcc, if_neg hcc]
  rw [hu1] at hT1
  cases hpl : (visitInnerT c.key c.val t).2.1 with
  | two d1 d2 =>
    rw [hpl] at ihat
    simp [atPath] at ihat
  | empty =>
    rw [hpl] at ihat
    refine ⟨s1, (visitInnerT c.key c.val t).1, ?_, hroot1.trans hroot, hT1, ihino,
      ?_, hlen1⟩
    · rw [Splay.visit.eq_def, hroot]
      simp only [heq1, Option.some_bind, Option.bind_eq_bind, hpl, Splay.splayFinish,
        ihval, Option.pure_def]
    · simpa [atPath] using ihat
  | one d =>
    rw [hpl] at ihat
    simp only [atPath] at ihat
    have hcne : childT (visitInnerT c.key c.val t).1 d ≠ .leaf := by
      intro hh
      rw [hh] at ihat
      simp [rootPair] at ihat
    obtain ⟨s2, hrot2, hT2, hroot2, hlen2, hframe2⟩ := rotate_sim hT1 hcne
    refine ⟨s2, rotT (visitInnerT c.key c.val t).1 d, ?_,
      hroot2.trans (hroot1.trans hroot), ?_, ?_, ?_, hlen2.trans hlen1⟩
    · rw [Splay.visit.eq_def, hroot]
      simp only [heq1, Option.some_bind, Option.bind_eq_bind, hpl, Splay.splayFinish,
        hroot1.trans hroot, hrot2, ihval, Option.pure_def]
    · rw [show Finset.range s2.nodes.length = Finset.range s1.nodes.length from by
        rw [hlen2]]
      exact hT2
    · rw [inorder_rotT]
      exact ihino
    · cases hcd : childT (visitInnerT c.key c.val t).1 d with
      | leaf => exact absurd hcd hcne
      | node ca ck cvv cb =>
        rw [hcd] at ihat
        simp only [rootPair, Option.some.injEq] at ihat
        rw [rootPair_rotT_of_child hcd, ihat]

theorem IsTree.set_value {s : Splay} {i : Nat} {l r : Tree} {k w : Int} (v : Int)
    {u : Finset Nat} (hT : IsTree s (some i) (Tree.node l k w r) u) :
    ∃ n, s.nodes[i]? = some n ∧ n.key = k ∧ n.value = w ∧
      IsTree { s with nodes := s.nodes.set i { n with value := v } } (some i)
        (Tree.node l k v r) u := by
  cases hT with
  | @node i k w li ri l r ul ur hn hl hr hi1 hi2 hd =>
    refine ⟨⟨k, w, li, ri⟩, hn, rfl, rfl, ?_⟩
    refine IsTree.node ?_ (IsTree.frame ?_ hl) (IsTree.frame ?_ hr) hi1 hi2 hd
    · rw [List.getElem?_set_self (by simpa using getElem?_lt hn)]
    · intro x hx
      refine List.getElem?_set_ne ?_
      intro hh
      rw [hh] at hi1
      exact hi1 hx
    · intro x hx
      refine List.getElem?_set_ne ?_
      intro hh
      rw [hh] at hi2
      exact hi2 hx

theorem IsTree.root_content {s : Splay} {i : Nat} {t : Tree} {u : Finset Nat}
    (hT : IsTree s (some i) t u) :
    ∃ n, s.nodes[i]? = some n ∧ rootPair t = some (n.key, n.value) := by
  cases hT with
  | @node i k v li ri l r ul ur hn hl hr hi1 hi2 hd => exact ⟨⟨k, v, li, ri⟩, hn, rfl⟩

theorem rootPair_node_inv {t : Tree} {k w : Int} (h : rootPair t = some (k, w)) :
    ∃ l r, t = Tree.node l k w r := by
  cases t with
  | leaf => simp [rootPair] at h
  | node l k1 v1 r =>
    simp only [rootPair, Option.some.injEq, Prod.mk.injEq] at h
    exact ⟨l, r, by rw [h.1, h.2]⟩

theorem get_sim {s : Splay} {t : Tree} (k : Int)
    (hT : IsTree s s.root t (Finset.range s.nodes.length))
    (hs : SortedKeys t.inorder) :
    ∃ s' t', s.get k = some (s', refGet k t.inorder) ∧
      IsTree s' s'.root t' (Finset.range s'.nodes.length) ∧
      t'.inorder = t.inorder ∧
      s'.nodes.length = s.nodes.length ∧
      (t ≠ .leaf → rootPair t' = some (searchT k none t)) := by
  cases hroot : s.root with
  | none =>
    rw [hroot] at hT
    obtain ⟨rfl, -⟩ := IsTree.none_leaf hT
    refine ⟨s, .leaf, ?_, hroot ▸ hT, rfl, rfl, fun h => absurd rfl h⟩
    rw [Splay.get, Splay.visit, hroot]
    simp [hroot, Tree.inorder, refGet]
  | some rt =>
    rw [hroot] at hT
    obtain ⟨s1, t1, heq1, hroot1, hT1, hino1, hrp1, hlen1⟩ :=
      visit_sim (.lookup k) hroot hT hs
    simp only [OrCreate.key, OrCreate.val] at heq1 hino1 hrp1 hlen1
    obtain ⟨n1, hn1, hrpc⟩ := IsTree.root_content hT1
    have hrpn : (n1.key, n1.value) = searchT k none t := by
      rw [hrpc] at hrp1
      exact Option.some.inj hrp1
    have hval : (if n1.key = k then some n1.value else none) = refGet k t.inorder := by
      cases hget : refGet k t.inorder with
      | some w =>
        have hsf := @searchT_found _ _ (none : Option Int) _ hs hget
        rw [hsf] at hrpn
        have hkk : n1.key = k := congrArg Prod.fst hrpn
        have hvv : n1.value = w := congrArg Prod.snd hrpn
        rw [if_pos hkk, hvv]
      | none =>
        obtain ⟨-, hne⟩ := searchT_miss_lookup hs hget (IsTree.ne_leaf hT)
        rw [← hrpn] at hne
        exact if_neg (by simpa using hne)
    refine ⟨s1, t1, ?_, ?_, hino1, ?_, fun _ => hrp1⟩
    · rw [Splay.get]
      simp only [heq1, visitVal, Option.some_bind, Option.bind_eq_bind, hroot1,
        hn1, hval, Option.pure_def]
    · rw [hroot1]
      exact hT1
    · rw [hlen1]
      simp [created]

theorem set_sim {s : Splay} {t : Tree} (k v : Int)
    (hT : IsTree s s.root t (Finset.range s.nodes.length))
    (hs : SortedKeys t.inorder) :
    ∃ s' t', s.set k v = some s' ∧
      IsTree s' s'.root t' (Finset.range s'.nodes.length) ∧
      t'.inorder = refSet k v t.inorder ∧
      rootPair t' = some (k, v) := by
  cases hroot : s.root with
  | none =>
    rw [hroot] at hT
    obtain ⟨rfl, hu⟩ := IsTree.none_leaf hT
    have hlen0 : s.nodes.length = 0 := by
      by_contra hc
      have : (0 : Nat) ∈ Finset.range s.nodes.length := by
        rw [Finset.mem_range]
        omega
      rw [hu] at this
      exact absurd this (Finset.not_mem_empty 0)
    refine ⟨Splay.mk (some s.nodes.length) (s.nodes ++ [Node.mk k v none none]),
      Tree.node .leaf k v .leaf, ?_, ?_, by simp [Tree.inorder, refSet], rfl⟩
    · rw [Splay.set, Splay.visit, hroot]
      simp [Splay.newNode]
    · have : (Finset.range (s.nodes ++ [Node.mk k v none none]).length)
          = insert s.nodes.length ((∅ : Finset Nat) ∪ ∅) := by
        simp [hlen0]
      rw [show (Splay.mk (some s.nodes.length)
        (s.nodes ++ [Node.mk k v none none])).root = some s.nodes.length from rfl, this]
      refine IsTree.node ?_ IsTree.leaf IsTree.leaf (by simp) (by simp) (by simp)
      exact List.getElem?_concat_length _ _
  | some rt =>
    rw [hroot] at hT
    obtain ⟨s1, t1, heq1, hroot1, hT1, hino1, hrp1, hlen1⟩ :=
      visit_sim (.create k v) hroot hT hs
    simp only [OrCreate.key, OrCreate.val] at heq1 hino1 hrp1 hlen1
    cases hget : refGet k t.inorder with
    | none =>
      -- a new node was created; visit returns no previous value
      have hvv : visitVal k (some v) t.inorder = none := by
        simp [visitVal, hget]
      refine ⟨s1, t1, ?_, ?_, ?_, ?_⟩
      · rw [Splay.set]
        simp only [heq1, hvv, Option.some_bind, Option.bind_eq_bind, Option.pure_def]
      · rw [hroot1]
        exact hT1
      · rw [hino1]
        simp [visitEntries, hget]
      · rw [hrp1, searchT_miss_create hs hget (IsTree.ne_leaf hT)]
    | some w =>
      have hvv : visitVal k (some v) t.inorder = some v := by
        simp [visitVal, hget]
      have hsf := @searchT_found _ _ (some v) _ hs hget
      rw [hsf] at hrp1
      obtain ⟨l1, r1, rfl⟩ := rootPair_node_inv hrp1
      obtain ⟨n1, hn1, hnk, hnv, hT2⟩ := IsTree.set_value v hT1
      refine ⟨Splay.mk (some rt) (s1.nodes.set rt { n1 with value := v }),
        Tree.node l1 k v r1, ?_, ?_, ?_, rfl⟩
      · rw [Splay.set]
        simp only [heq1, hvv, Option.some_bind, Option.bind_eq_bind, hroot1, hn1,
          Option.pure_def]
      · rw [show Finset.range (Splay.mk (some rt)
            (s1.nodes.set rt { n1 with value := v })).nodes.length
          = Finset.range s1.nodes.length from by simp]
        rw [hroot1] at hT2
        exact hT2
      · have hino1' : (Tree.node l1 k w r1).inorder = t.inorder := by
          rw [hino1]
          simp [visitEntries, hget]
        have hs1 : SortedKeys (Tree.node l1 k w r1).inorder := by
          rw [hino1']
          exact hs
        obtain ⟨-, -, hbl1, -⟩ := sorted_node hs1
        rw [← hino1', Tree.inorder, Tree.inorder, refSet_append_self hbl1]

/-! ## The reachable-state invariant and the run lemma -/

theorem Inv_new : Inv Splay.new [] := by
  refine ⟨.leaf, ?_, rfl, List.Pairwise.nil⟩
  show IsTree Splay.new none Tree.leaf (Finset.range 0)
  rw [Finset.range_zero]
  exact IsTree.leaf

theorem Inv.length {s : Splay} {m : List (Int × Int)} (h : Inv s m) :
    s.nodes.length = m.length := by
  obtain ⟨t, hT, hino, hsort⟩ := h
  have h1 := IsTree.size_eq hT
  rw [Finset.card_range] at h1
  rw [← hino, inorder_length, h1]

theorem rootKV_of_IsTree {s : Splay} {r : Nat} {t : Tree} {u : Finset Nat}
    (hT : IsTree s (some r) t u) (hroot : s.root = some r) :
    s.rootKV = rootPair t := by
  obtain ⟨n, hn, hrp⟩ := IsTree.root_content hT
  rw [Splay.rootKV, hroot, hrp]
  simp only [Option.some_bind, Option.bind_eq_bind, hn, Option.map_some']

theorem set_inv {s : Splay} {m : List (Int × Int)} (k v : Int) (h : Inv s m) :
    ∃ s', s.set k v = some s' ∧ Inv s' (refSet k v m) ∧ s'.rootKV = some (k, v) := by
  obtain ⟨t, hT, hino, hsort⟩ := h
  obtain ⟨s', t', heq, hT', hino', hrp'⟩ := set_sim k v hT (by rw [hino]; exact hsort)
  have ht'ne : t' ≠ .leaf := by
    intro hh
    rw [hh] at hrp'
    simp [rootPair] at hrp'
  cases hroot' : s'.root with
  | none =>
    rw [hroot'] at hT'
    exact absurd (IsTree.none_leaf hT').1 ht'ne
  | some rt' =>
    rw [hroot'] at hT'
    refine ⟨s', heq, ⟨t', hroot' ▸ hT', by rw [hino', hino], refSet_sorted hsort⟩, ?_⟩
    rw [rootKV_of_IsTree hT' hroot', hrp']

theorem get_inv {s : Splay} {m : List (Int × Int)} (k : Int) (h : Inv s m) :
    ∃ s', s.get k = some (s', refGet k m) ∧ Inv s' m ∧
      s'.nodes.length = s.nodes.length := by
  obtain ⟨t, hT, hino, hsort⟩ := h
  obtain ⟨s', t', heq, hT', hino', hlen', hrp'⟩ :=
    get_sim k hT (by rw [hino]; exact hsort)
  exact ⟨s', by rw [heq, hino], ⟨t', hT', by rw [hino', hino], hsort⟩, hlen'⟩

theorem runFrom_sim : ∀ (ops : List Op) (m : List (Int × Int)) (s : Splay), Inv s m →
    ∃ s', runFrom s ops = some (s', refRun m ops) ∧ Inv s' (refState m ops) := by
  intro ops
  induction ops with
  | nil => exact fun m s h => ⟨s, rfl, h⟩
  | cons op ops ih =>
    intro m s h
    cases op with
    | set k v =>
      obtain ⟨s1, heq1, hinv1, -⟩ := set_inv k v h
      obtain ⟨s', heq', hinv'⟩ := ih (refSet k v m) s1 hinv1
      refine ⟨s', ?_, hinv'⟩
      rw [runFrom]
      simp only [heq1, Option.some_bind, Option.bind_eq_bind, heq']
      rfl
    | get k =>
      obtain ⟨s1, heq1, hinv1, -⟩ := get_inv k h
      obtain ⟨s', heq', hinv'⟩ := ih m s1 hinv1
      refine ⟨s', ?_, hinv'⟩
      rw [runFrom]
      simp only [heq1, Option.some_bind, Option.bind_eq_bind, heq', Option.pure_def]
      rfl

/-- Every run from `new()` succeeds, and its `get` results are those of
the reference container. -/
theorem runOps_sim (ops : List Op) :
    ∃ s', runOps ops = some (s', refRun [] ops) ∧ Inv s' (refState [] ops) :=
  runFrom_sim ops [] Splay.new Inv_new

/-! ## Decoding, depth and local BST ordering -/

theorem decode_of_IsTree {s : Splay} {r : Option Nat} {t : Tree} {u : Finset Nat}
    (hT : IsTree s r t u) : ∀ fuel, t.height < fuel → decode s fuel r = some t := by
  induction hT with
  | leaf => intro fuel _; cases fuel <;> rfl
  | @node i k v li ri l r ul ur hn hl hr hi1 hi2 hd ihl ihr =>
    intro fuel hf
    cases fuel with
    | zero => omega
    | succ f =>
      have hhl : l.height < f := by
        simp only [Tree.height] at hf
        omega
      have hhr : r.height < f := by
        simp only [Tree.height] at hf
        omega
      rw [decode, hn]
      simp only [Option.some_bind, Option.bind_eq_bind, ihl f hhl, ihr f hhr,
        Option.pure_def]

theorem treeOf_of_Inv {s : Splay} {m : List (Int × Int)} (h : Inv s m) :
    ∃ t, treeOf s = some t ∧ t.inorder = m ∧ SortedKeys m ∧
      IsTree s s.root t (Finset.range s.nodes.length) := by
  obtain ⟨t, hT, hino, hsort⟩ := h
  refine ⟨t, ?_, hino, hsort, hT⟩
  rw [treeOf]
  refine decode_of_IsTree hT _ ?_
  have h1 := height_le_size t
  have h2 := IsTree.size_eq hT
  rw [Finset.card_range] at h2
  omega

theorem nodeDepth_of_IsTree {s : Splay} {r : Option Nat} {t : Tree} {u : Finset Nat}
    (hT : IsTree s r t u) : ∀ fuel, t.height < fuel →
    s.nodeDepth fuel r = some t.height := by
  induction hT with
  | leaf => intro fuel _; cases fuel <;> rfl
  | @node i k v li ri l r ul ur hn hl hr hi1 hi2 hd ihl ihr =>
    intro fuel hf
    cases fuel with
    | zero => omega
    | succ f =>
      have hhl : l.height < f := by
        simp only [Tree.height] at hf
        omega
      have hhr : r.height < f := by
        simp only [Tree.height] at hf
        omega
      rw [Splay.nodeDepth, hn]
      simp only [Option.some_bind, Option.bind_eq_bind, ihl f hhl, ihr f hhr,
        Option.pure_def, Tree.height]

theorem depth_of_Inv {s : Splay} {m : List (Int × Int)} (h : Inv s m) :
    ∃ t, treeOf s = some t ∧ s.depth = some t.height := by
  obtain ⟨t, htree, hino, hsort, hT⟩ := treeOf_of_Inv h
  refine ⟨t, htree, ?_⟩
  rw [Splay.depth]
  refine nodeDepth_of_IsTree hT _ ?_
  have h1 := height_le_size t
  have h2 := IsTree.size_eq hT
  rw [Finset.card_range] at h2
  omega

theorem BSTlocal_of_sorted : ∀ {t : Tree}, SortedKeys t.inorder → BSTlocal t := by
  intro t
  induction t with
  | leaf => exact fun _ => trivial
  | node l k v r ihl ihr =>
    intro hs
    obtain ⟨hsl, hsr, hbl, hbr⟩ := sorted_node hs
    refine ⟨?_, ?_, ihl hsl, ihr hsr⟩
    · intro k' hk'
      obtain ⟨p, hp, rfl⟩ := List.mem_map.1 hk'
      exact hbl p hp
    · intro k' hk'
      obtain ⟨p, hp, rfl⟩ := List.mem_map.1 hk'
      exact hbr p hp

/-! ## Iterator correctness -/

theorem stacked_nil_inv {s : Splay} {out : List (Int × Int)}
    (h : Stacked s [] out) : out = [] := by
  cases h with
  | nil => rfl

theorem stacked_consFalse_inv {s : Splay} {i : Nat} {rest : List (Nat × Bool)}
    {out : List (Int × Int)} (h : Stacked s ((i, false) :: rest) out) :
    ∃ n tr ur out', s.nodes[i]? = some n ∧ IsTree s n.right tr ur ∧
      Stacked s rest out' ∧ out = (n.key, n.value) :: (tr.inorder ++ out') := by
  cases h with
  | consFalse hn hT hrest => exact ⟨_, _, _, _, hn, hT, hrest, rfl⟩

/-- Pushing the left spine of a subtree extends the pending output by
the subtree's in-order entries. -/
theorem towardsMin_stacked {s : Splay} :
    ∀ (t : Tree) (i : Nat) (u : Finset Nat) (stack : List (Nat × Bool))
      (out : List (Int × Int)) (fuel : Nat),
    IsTree s (some i) t u → Stacked s stack out → t.size ≤ fuel →
    ∃ stack', s.towardsMin fuel i stack = some stack' ∧
      Stacked s stack' (t.inorder ++ out) ∧
      ∃ j rest, stack' = (j, false) :: rest := by
  intro t
  induction t with
  | leaf => intro i u stack out fuel hT; exact absurd rfl (IsTree.ne_leaf hT)
  | node l k v r ihl ihr =>
    intro i u stack out fuel hT hst hsize
    cases hT with
    | @node i k v li ri l r ul ur hn hl hr hi1 hi2 hd =>
      cases fuel with
      | zero => simp [Tree.size] at hsize
      | succ f =>
        have hstack1 : Stacked s ((i, false) :: stack)
            ((k, v) :: (r.inorder ++ out)) := by
          have : ((⟨k, v, li, ri⟩ : Node).key, (⟨k, v, li, ri⟩ : Node).value)
              = (k, v) := rfl
          exact Stacked.consFalse hn hr hst
        cases hli : li with
        | none =>
          rw [hli] at hl
          obtain ⟨rfl, rfl⟩ := IsTree.none_leaf hl
          refine ⟨(i, false) :: stack, ?_, ?_, i, stack, rfl⟩
          · rw [Splay.towardsMin, hn]
            simp only [Option.some_bind, Option.bind_eq_bind, hli, Option.pure_def]
          · simpa [Tree.inorder] using hstack1
        | some j =>
          rw [hli] at hl
          have hlsize : l.size ≤ f := by
            simp only [Tree.size] at hsize
            omega
          obtain ⟨stack', heq', hst', htop'⟩ :=
            ihl j ul ((i, false) :: stack) ((k, v) :: (r.inorder ++ out)) f hl hstack1
              hlsize
          refine ⟨stack', ?_, ?_, htop'⟩
          · rw [Splay.towardsMin, hn]
            simp only [Option.some_bind, Option.bind_eq_bind, hli]
            exact heq'
          · rw [Tree.inorder]
            simpa [List.append_assoc] using hst'

theorem upwards_stacked {s : Splay} :
    ∀ {stack : List (Nat × Bool)} {out : List (Int × Int)},
    Stacked s stack out → Stacked s (Splay.upwards stack) out ∧
      (Splay.upwards stack = [] ∨
        ∃ j rest, Splay.upwards stack = (j, false) :: rest) := by
  intro stack
  induction stack with
  | nil =>
    intro out h
    exact ⟨h, Or.inl rfl⟩
  | cons e rest ih =>
    intro out h
    obtain ⟨i, b⟩ := e
    cases b with
    | false =>
      exact ⟨h, Or.inr ⟨i, rest, rfl⟩⟩
    | true =>
      cases h with
      | consTrue hrest =>
        rw [show Splay.upwards ((i, true) :: rest) = Splay.upwards rest from rfl]
        exact ih hrest

/-- Driving the iterator yields exactly the pending output. -/
theorem iterRun_stacked {s : Splay} :
    ∀ (out : List (Int × Int)) (stack : List (Nat × Bool)) (fuel : Nat),
    Stacked s stack out →
    (stack = [] ∨ ∃ j rest, stack = (j, false) :: rest) →
    out.length < fuel →
    s.iterRun fuel stack = some out := by
  intro out
  induction out with
  | nil =>
    intro stack fuel hst htop hfuel
    cases fuel with
    | zero => omega
    | succ f =>
      rcases htop with rfl | ⟨j, rest, rfl⟩
      · rw [Splay.iterRun]
        rfl
      · obtain ⟨n, tr, ur, out', hn, hT, hst', hout⟩ := stacked_consFalse_inv hst
        exact absurd hout (by simp)
  | cons e out ih =>
    intro stack fuel hst htop hfuel
    cases fuel with
    | zero => omega
    | succ f =>
      rcases htop with rfl | ⟨j, rest, rfl⟩
      · exact absurd (stacked_nil_inv hst).symm (by simp)
      · obtain ⟨n, tr, ur, out', hn, hT, hst', hout⟩ := stacked_consFalse_inv hst
        obtain ⟨rfl, hout'⟩ : e = (n.key, n.value) ∧ out = tr.inorder ++ out' := by
          rw [List.cons_eq_cons] at hout
          exact ⟨hout.1, hout.2⟩
        cases hri : n.right with
        | none =>
          rw [hri] at hT
          obtain ⟨rfl, rfl⟩ := IsTree.none_leaf hT
          obtain ⟨hstU, htopU⟩ := upwards_stacked (Stacked.consTrue (i := j) hst')
          have hout2 : out = out' := by simpa [Tree.inorder] using hout'
          rw [← hout2] at hstU
          have hrun : s.iterRun f (Splay.upwards ((j, true) :: rest)) = some out :=
            ih _ f hstU htopU (by simp at hfuel; omega)
          rw [Splay.iterRun, Splay.iterNext, hn]
          simp only [Option.some_bind, Option.bind_eq_bind, hri, Option.pure_def, hrun]
        | some r0 =>
          rw [hri] at hT
          have hsize : tr.size ≤ s.nodes.length := by
            have hsub : ur ⊆ Finset.range s.nodes.length := by
              intro x hx
              rw [Finset.mem_range]
              exact IsTree.lt_length hT x hx
            have := Finset.card_le_card hsub
            rw [Finset.card_range] at this
            rw [IsTree.size_eq hT]
            exact this
          obtain ⟨stack2, heq2, hst2, htop2⟩ :=
            towardsMin_stacked tr r0 ur ((j, true) :: rest) out' s.nodes.length hT
              (Stacked.consTrue hst') hsize
          rw [← hout'] at hst2
          have hrun : s.iterRun f stack2 = some out :=
            ih stack2 f hst2 (Or.inr htop2) (by simp at hfuel; omega)
          rw [Splay.iterRun, Splay.iterNext, hn]
          simp only [Option.some_bind, Option.bind_eq_bind, hri, heq2,
            Option.pure_def, hrun]

/-- On any state satisfying the invariant, `iter()` succeeds and yields
exactly the entry list `m`. -/
theorem iterList_of_Inv {s : Splay} {m : List (Int × Int)} (h : Inv s m) :
    s.iterList = some m := by
  obtain ⟨t, hT, hino, hsort⟩ := h
  have hmlen : m.length = s.nodes.length := by
    rw [← hino, inorder_length, IsTree.size_eq hT, Finset.card_range]
  cases hroot : s.root with
  | none =>
    rw [hroot] at hT
    obtain ⟨rfl, -⟩ := IsTree.none_leaf hT
    rw [Splay.iterList, Splay.iterInit, hroot]
    simp only [Option.some_bind, Option.bind_eq_bind]
    rw [iterRun_stacked ([] : List (Int × Int)) [] (s.nodes.length + 1) Stacked.nil
      (Or.inl rfl) (by simp)]
    rw [← hino]
    rfl
  | some rt =>
    rw [hroot] at hT
    have hsize : t.size ≤ s.nodes.length := by
      rw [IsTree.size_eq hT, Finset.card_range]
    obtain ⟨stack0, heq0, hst0, htop0⟩ :=
      towardsMin_stacked t rt (Finset.range s.nodes.length) [] [] s.nodes.length hT
        Stacked.nil hsize
    rw [Splay.iterList, Splay.iterInit, hroot]
    simp only [Option.some_bind, Option.bind_eq_bind, heq0]
    rw [List.append_nil] at hst0
    rw [iterRun_stacked m stack0 (s.nodes.length + 1) (hino ▸ hst0) (Or.inr htop0)
      (by omega)]

/-! ## Model lemmas: most-recently-set values and distinct keys -/

theorem lastSet_append_some {k v : Int} {B : List (Int × Int)}
    (h : lastSet k B = some v) (A : List (Int × Int)) :
    lastSet k (A ++ B) = some v := by
  induction A with
  | nil => simpa using h
  | cons p A ih => simp only [List.cons_append, lastSet, List.append_eq, ih]

theorem lastSet_append_none {k : Int} {B : List (Int × Int)}
    (h : lastSet k B = none) (A : List (Int × Int)) :
    lastSet k (A ++ B) = lastSet k A := by
  induction A with
  | nil => simpa using h
  | cons p A ih => simp only [List.cons_append, lastSet, List.append_eq, ih]

theorem refGet_refSet_lastSet {m S : List (Int × Int)}
    (h : ∀ k, refGet k m = lastSet k S) (kk vv : Int) :
    ∀ k, refGet k (refSet kk vv m) = lastSet k (S ++ [(kk, vv)]) := by
  intro k
  by_cases hk : k = kk
  · subst hk
    rw [refGet_refSet_self]
    exact (lastSet_append_some (by simp [lastSet]) S).symm
  · rw [refGet_refSet_ne hk, h k,
      lastSet_append_none (by simp [lastSet, Ne.symm hk]) S]

theorem refRun_specResults : ∀ (ops : List Op) (m S : List (Int × Int)),
    (∀ k, refGet k m = lastSet k S) → refRun m ops = specResults S ops := by
  intro ops
  induction ops with
  | nil => intro m S _; rfl
  | cons op ops ih =>
    intro m S h
    cases op with
    | set k v =>
      rw [refRun, specResults]
      exact ih _ _ (refGet_refSet_lastSet h k v)
    | get k =>
      rw [refRun, specResults, h k, ih m S h]

theorem refGet_refState_lastSet : ∀ (ops : List Op) (m S : List (Int × Int)),
    (∀ k, refGet k m = lastSet k S) →
    ∀ k, refGet k (refState m ops) = lastSet k (S ++ setsOf ops) := by
  intro ops
  induction ops with
  | nil => intro m S h k; rw [refState, setsOf, List.append_nil]; exact h k
  | cons op ops ih =>
    intro m S h k
    cases op with
    | set kk vv =>
      rw [refState, setsOf,
        show (kk, vv) :: setsOf ops = [(kk, vv)] ++ setsOf ops from rfl,
        ← List.append_assoc]
      exact ih (refSet kk vv m) (S ++ [(kk, vv)]) (refGet_refSet_lastSet h kk vv) k
    | get kq =>
      rw [refState, setsOf]
      exact ih m S h k

theorem keys_refState : ∀ (ops : List Op) (m : List (Int × Int)),
    ((refState m ops).map Prod.fst).toFinset
      = setKeysF ops ∪ (m.map Prod.fst).toFinset := by
  intro ops
  induction ops with
  | nil => intro m; rw [refState, setKeysF, Finset.empty_union]
  | cons op ops ih =>
    intro m
    cases op with
    | set k v =>
      rw [refState, setKeysF, ih (refSet k v m), keys_refSet_toFinset]
      ext a
      simp only [Finset.mem_union, Finset.mem_insert]
      tauto
    | get k =>
      rw [refState, setKeysF]
      exact ih m

theorem sorted_length_card {m : List (Int × Int)} (hs : SortedKeys m) :
    m.length = ((m.map Prod.fst).toFinset).card := by
  have hnd : (m.map Prod.fst).Nodup :=
    List.Pairwise.map Prod.fst (fun a b h => ne_of_lt h) hs
  rw [List.toFinset_card_of_nodup hnd, List.length_map]

theorem setKeysF_append (a b : List Op) :
    setKeysF (a ++ b) = setKeysF a ∪ setKeysF b := by
  induction a with
  | nil => simp [setKeysF]
  | cons op ops ih => cases op <;> simp [setKeysF, ih, Finset.insert_union]

theorem nodes_length_card {ops : List Op} {s : Splay}
    (h : Inv s (refState [] ops)) :
    s.nodes.length = (setKeysF ops).card := by
  obtain ⟨t, hT, hino, hsort⟩ := h
  have h1 : s.nodes.length = (refState [] ops).length :=
    Inv.length ⟨t, hT, hino, hsort⟩
  rw [h1, sorted_length_card hsort, keys_refState ops []]
  simp

theorem withDir_key (n : Node) (d : Dir) (c : Option Nat) :
    (n.withDir d c).key = n.key := by
  cases d <;> rfl

theorem withDir_value (n : Node) (d : Dir) (c : Option Nat) :
    (n.withDir d c).value = n.value := by
  cases d <;> rfl

theorem Inv_example :
    Inv (Splay.mk (some 0) [Node.mk 1 10 none none]) [(1, 10)] := by
  refine ⟨.node .leaf 1 10 .leaf, ?_, rfl, by simp [SortedKeys]⟩
  show IsTree _ (some 0) (.node .leaf 1 10 .leaf) (Finset.range 1)
  rw [show Finset.range 1 = insert 0 ((∅ : Finset Nat) ∪ ∅) from by decide]
  exact IsTree.node rfl IsTree.leaf IsTree.leaf (Finset.not_mem_empty 0)
    (Finset.not_mem_empty 0) (Finset.disjoint_empty_left _)

/-! ## The claims -/

/-- C1: For every finite sequence of `set` and `get` calls starting from
`new()`, every call succeeds, and each `get k` returns exactly what the
reference associative container returns for the same sequence — `Some`
of the value most recently set for `k`, `None` if `k` was never set. -/
theorem differential_equivalence (ops : List Op) :
    ∃ s, runOps ops = some (s, refRun [] ops) ∧
      refRun [] ops = specResults [] ops := by
  obtain ⟨s, hrun, -⟩ := runOps_sim ops
  exact ⟨s, hrun, refRun_specResults ops [] [] (fun _ => rfl)⟩

/-- C2: On every state reachable by a call sequence, `iter()` yields a
finite list of pairs with strictly ascending keys, whose key set is
exactly the set of distinct keys ever set, whose length is the number of
those keys, and whose pairs carry the most recently set value per key. -/
theorem iter_ascending_complete (ops : List Op) :
    ∃ s res out, runOps ops = some (s, res) ∧ s.iterList = some out ∧
      SortedKeys out ∧
      (out.map Prod.fst).toFinset = setKeysF ops ∧
      out.length = (setKeysF ops).card ∧
      ∀ k v, (k, v) ∈ out ↔ lastSet k (setsOf ops) = some v := by
  obtain ⟨s, hrun, hinv⟩ := runOps_sim ops
  obtain ⟨t, hT, hino, hsort⟩ := hinv
  have hinv2 : Inv s (refState [] ops) := ⟨t, hT, hino, hsort⟩
  have hkeys : ((refState [] ops).map Prod.fst).toFinset = setKeysF ops := by
    rw [keys_refState ops []]
    simp
  refine ⟨s, _, refState [] ops, hrun, iterList_of_Inv hinv2, hsort, hkeys, ?_, ?_⟩
  · rw [sorted_length_card hsort, hkeys]
  · intro k v
    rw [mem_iff_refGet hsort,
      refGet_refState_lastSet ops [] [] (fun _ => rfl) k, List.nil_append]

/-- C3: On any reachable state, after `set k v` the root node holds
`(k, v)`; after `get k` with `k` present the root holds `k` with its
value, which is returned; after a `get` that misses on a non-empty tree,
the node where the search dead-ends becomes the root and `None` is
returned. -/
theorem root_after_access {s : Splay} {m : List (Int × Int)} (k v : Int)
    (h : Inv s m) :
    (∃ s', s.set k v = some s' ∧ s'.rootKV = some (k, v)) ∧
    (∀ w, refGet k m = some w →
      ∃ s', s.get k = some (s', some w) ∧ s'.rootKV = some (k, w)) ∧
    (refGet k m = none → m ≠ [] →
      ∃ t s', treeOf s = some t ∧ s.get k = some (s', none) ∧
        s'.rootKV = some (searchT k none t)) := by
  obtain ⟨t, htree, hino, hsort, hT⟩ := treeOf_of_Inv h
  have hsortt : SortedKeys t.inorder := by rw [hino]; exact hsort
  refine ⟨?_, ?_, ?_⟩
  · obtain ⟨s', heq, -, hroot'⟩ := set_inv k v h
    exact ⟨s', heq, hroot'⟩
  · intro w hw
    obtain ⟨s', t', heq, hT', hino', hlen', hrp'⟩ := get_sim k hT hsortt
    have htne : t ≠ .leaf := by
      intro hh
      subst hh
      rw [Tree.inorder] at hino
      rw [← hino] at hw
      simp [refGet] at hw
    have hrp2 := hrp' htne
    have hst : searchT k none t = (k, w) :=
      searchT_found hsortt (by rw [hino]; exact hw)
    have ht'ne : t' ≠ .leaf := by
      intro hh
      rw [hh] at hrp2
      simp [rootPair] at hrp2
    cases hroot' : s'.root with
    | none =>
      rw [hroot'] at hT'
      exact absurd (IsTree.none_leaf hT').1 ht'ne
    | some rt' =>
      rw [hroot'] at hT'
      refine ⟨s', ?_, ?_⟩
      · rw [heq, hino, hw]
      · rw [rootKV_of_IsTree hT' hroot', hrp2, hst]
  · intro hw hm
    obtain ⟨s', t', heq, hT', hino', hlen', hrp'⟩ := get_sim k hT hsortt
    have htne : t ≠ .leaf := by
      intro hh
      subst hh
      rw [Tree.inorder] at hino
      exact hm hino.symm
    have hrp2 := hrp' htne
    have ht'ne : t' ≠ .leaf := by
      intro hh
      rw [hh] at hrp2
      simp [rootPair] at hrp2
    cases hroot' : s'.root with
    | none =>
      rw [hroot'] at hT'
      exact absurd (IsTree.none_leaf hT').1 ht'ne
    | some rt' =>
      rw [hroot'] at hT'
      refine ⟨t, s', htree, ?_, ?_⟩
      · rw [heq, hino, hw]
      · rw [rootKV_of_IsTree hT' hroot', hrp2]

theorem root_after_access_witness :
    (∃ s', (Splay.mk (some 0) [Node.mk 1 10 none none]).set 2 20 = some s' ∧
      s'.rootKV = some (2, 20)) ∧
    (∀ w, refGet 2 [(1, 10)] = some w →
      ∃ s', (Splay.mk (some 0) [Node.mk 1 10 none none]).get 2
          = some (s', some w) ∧ s'.rootKV = some (2, w)) ∧
    (refGet 2 [(1, 10)] = none → [(1, 10)] ≠ ([] : List (Int × Int)) →
      ∃ t s', treeOf (Splay.mk (some 0) [Node.mk 1 10 none none]) = some t ∧
        (Splay.mk (some 0) [Node.mk 1 10 none none]).get 2 = some (s', none) ∧
        s'.rootKV = some (searchT 2 none t)) :=
  root_after_access 2 20 Inv_example

/-- C4: Binary-search-tree ordering is preserved by every operation: the
tree decoded from any state reachable from `new()` satisfies the
node-local ordering — every key in a left subtree is less than the
node's key, every key in a right subtree greater. -/
theorem bst_invariant (ops : List Op) :
    ∃ s res t, runOps ops = some (s, res) ∧ treeOf s = some t ∧ BSTlocal t := by
  obtain ⟨s, hrun, hinv⟩ := runOps_sim ops
  obtain ⟨t, htree, hino, hsort, -⟩ := treeOf_of_Inv hinv
  exact ⟨s, _, t, hrun, htree,
    BSTlocal_of_sorted (by rw [hino]; exact hsort)⟩

/-- C5 (amended): a rotation does not keep node contents in place — it
swaps the contents of the two slots on the rotated edge.  The `(key,
value)` content of the lower slot moves into the upper slot and vice
versa; every other slot, the root reference and the arena length are
unchanged. -/
theorem rotate_swaps_edge_slots {s : Splay} {i j : Nat} {d : Dir} {n m : Node}
    (hn : s.nodes[i]? = some n) (hj : n.dirChild d = some j)
    (hm : s.nodes[j]? = some m) (hij : i ≠ j) :
    ∃ s', s.rotate i d = some s' ∧
      s'.root = s.root ∧
      s'.nodes.length = s.nodes.length ∧
      s'.nodes[i]?.map (fun q => (q.key, q.value)) = some (m.key, m.value) ∧
      s'.nodes[j]?.map (fun q => (q.key, q.value)) = some (n.key, n.value) ∧
      ∀ a, a ≠ i → a ≠ j → s'.nodes[a]? = s.nodes[a]? := by
  have hi : i < s.nodes.length := getElem?_lt hn
  have hjl : j < s.nodes.length := getElem?_lt hm
  refine ⟨_, rotate_spec hn hj hm hij, rfl, by simp, ?_, ?_, ?_⟩
  · rw [List.getElem?_set_ne (Ne.symm hij),
      List.getElem?_set_eq (by simpa using hi)]
    simp [withDir_key, withDir_value]
  · rw [List.getElem?_set_eq (by simpa using hjl)]
    simp [withDir_key, withDir_value]
  · intro a hai haj
    rw [List.getElem?_set_ne (Ne.symm haj), List.getElem?_set_ne (Ne.symm hai),
      List.getElem?_set_ne (Ne.symm haj), List.getElem?_set_ne (Ne.symm hai)]

theorem rotate_swaps_edge_slots_witness :
    ∃ s', (Splay.mk (some 0) [Node.mk 2 20 (some 1) none,
        Node.mk 1 10 none none]).rotate 0 Dir.left = some s' ∧
      s'.root = (Splay.mk (some 0) [Node.mk 2 20 (some 1) none,
        Node.mk 1 10 none none]).root ∧
      s'.nodes.length = (Splay.mk (some 0) [Node.mk 2 20 (some 1) none,
        Node.mk 1 10 none none]).nodes.length ∧
      s'.nodes[0]?.map (fun q => (q.key, q.value)) = some (1, 10) ∧
      s'.nodes[1]?.map (fun q => (q.key, q.value)) = some (2, 20) ∧
      ∀ a, a ≠ 0 → a ≠ 1 →
        s'.nodes[a]? = (Splay.mk (some 0) [Node.mk 2 20 (some 1) none,
          Node.mk 1 10 none none]).nodes[a]? :=
  @rotate_swaps_edge_slots
    (Splay.mk (some 0) [Node.mk 2 20 (some 1) none, Node.mk 1 10 none none])
    0 1 Dir.left (Node.mk 2 20 (some 1) none) (Node.mk 1 10 none none)
    rfl rfl rfl (by decide)

/-- C5 counterexample to the claimed slot stability: the first `set`
allocates the node with key 1 in slot 0, but after a second `set` the
splay has moved that node's contents to slot 1 — slot 0 now holds key 2.
The arena slot holding a node's `(key, value)` is not stable. -/
theorem slot_stability_counterexample :
    runOps [Op.set 1 10] =
      some (Splay.mk (some 0) [Node.mk 1 10 none none], []) ∧
    runOps [Op.set 1 10, Op.set 2 20] =
      some (Splay.mk (some 0) [Node.mk 2 20 (some 1) none,
        Node.mk 1 10 none none], []) :=
  ⟨rfl, rfl⟩

/-- C6: no public operation panics on any call sequence: every `set` and
`get` succeeds (every `unwrap`, the `unreachable!` branch and every
arena index is in bounds — a violation would surface as `none`), and on
the resulting state iteration and `depth()` succeed as well. -/
theorem ops_never_fail (ops : List Op) :
    ∃ s res out dep, runOps ops = some (s, res) ∧
      s.iterList = some out ∧ s.depth = some dep := by
  obtain ⟨s, hrun, hinv⟩ := runOps_sim ops
  obtain ⟨t, -, hdep⟩ := depth_of_Inv hinv
  exact ⟨s, _, _, _, hrun, iterList_of_Inv hinv, hdep⟩

/-- C7: a node is allocated exactly once per distinct key and never
deleted: after any call sequence the arena length equals the number of
distinct keys ever set, and extending the sequence never shrinks it. -/
theorem arena_length_distinct_keys (ops : List Op) :
    ∃ s res, runOps ops = some (s, res) ∧
      s.nodes.length = (setKeysF ops).card ∧
      ∀ more : List Op, ∃ s2 res2, runOps (ops ++ more) = some (s2, res2) ∧
        s.nodes.length ≤ s2.nodes.length := by
  obtain ⟨s, hrun, hinv⟩ := runOps_sim ops
  have hcard := nodes_length_card hinv
  refine ⟨s, _, hrun, hcard, ?_⟩
  intro more
  obtain ⟨s2, hrun2, hinv2⟩ := runOps_sim (ops ++ more)
  have hcard2 := nodes_length_card hinv2
  refine ⟨s2, _, hrun2, ?_⟩
  rw [hcard, hcard2, setKeysF_append]
  apply Finset.card_le_card
  intro x hx
  rw [Finset.mem_union]
  exact Or.inl hx

/-- C8: `get` never adds, removes or modifies an entry: on any reachable
state it succeeds, and iteration yields exactly the same entry list
before and after the call. -/
theorem get_preserves_entries {s : Splay} {m : List (Int × Int)} (k : Int)
    (h : Inv s m) :
    ∃ s' r, s.get k = some (s', r) ∧
      s.iterList = some m ∧ s'.iterList = some m := by
  obtain ⟨s', hg, hinv', -⟩ := get_inv k h
  exact ⟨s', _, hg, iterList_of_Inv h, iterList_of_Inv hinv'⟩

theorem get_preserves_entries_witness :
    ∃ s' r, (Splay.mk (some 0) [Node.mk 1 10 none none]).get 1
        = some (s', r) ∧
      (Splay.mk (some 0) [Node.mk 1 10 none none]).iterList = some [(1, 10)] ∧
      s'.iterList = some [(1, 10)] :=
  get_preserves_entries 1 Inv_example

/-- C9: on a freshly constructed container, `get k` returns `none` for
every key and leaves the state unchanged, `iter()` yields the empty
sequence, and `depth()` is 0. -/
theorem fresh_container_behavior :
    (∀ k : Int, Splay.new.get k = some (Splay.new, none)) ∧
    Splay.new.iterList = some [] ∧
    Splay.new.depth = some 0 :=
  ⟨fun _ => rfl, rfl, rfl⟩

/-- C10: the splay engine does not perform the collapsed zig-zig rotation
pair the amortized bound relies on.  After inserting 1, 2, 3 (a left
chain with root 3), accessing key 1 produces the move-to-root shape
`1(·, 3(2, ·))`, whereas the spec's combined zig-zig step (rotate the
grandparent edge, then the new top edge) yields `1(·, 2(·, 3))` — so
`splay_step` is two single rotations, not a zig-zig. -/
theorem zigzig_shape_move_to_root :
    ∃ s0 s,
      runOps [Op.set 1 1, Op.set 2 2, Op.set 3 3] = some (s0, []) ∧
      treeOf s0
        = some (.node (.node (.node .leaf 1 1 .leaf) 2 2 .leaf) 3 3 .leaf) ∧
      runFrom s0 [Op.get 1] = some (s, [some 1]) ∧
      treeOf s
        = some (.node .leaf 1 1 (.node (.node .leaf 2 2 .leaf) 3 3 .leaf)) ∧
      zigZigSpecT (.node (.node (.node .leaf 1 1 .leaf) 2 2 .leaf) 3 3 .leaf)
          Dir.left
        = .node .leaf 1 1 (.node .leaf 2 2 (.node .leaf 3 3 .leaf)) ∧
      treeOf s ≠ some (zigZigSpecT
        (.node (.node (.node .leaf 1 1 .leaf) 2 2 .leaf) 3 3 .leaf) Dir.left) := by
  refine ⟨_, _, rfl, rfl, rfl, rfl, rfl, by decide⟩

end CrabBucket
